import Mathlib

/-!
Verification development for the Krympa proof-minimization engine
(`src/rust/src/` of the repository).  Rust strings are modelled as `List Char`
(`Str`); Rust `usize` as `Nat` (with the `2^64` parse bound where the source
can reject an overflowing literal); fallible or panicking Rust code returns
`Option`/`Except`.  Each section embeds one source file; the theorems at the
end settle the specification claims against these embeddings.

Notes on regex modelling: the source uses the `regex` crate with the patterns
`!\s*\[([^\]]*)\]\s*:\s*(.*)`, `\bNAME\b`, `\bX\d+\b` and `\bsK\d+\b` only.
These are embedded as deterministic scanners over `List Char`; `\b` is the
word/non-word boundary with word characters `[0-9A-Za-z_]` (the inputs in
this code base are ASCII, where the crate's Unicode classes coincide with
these).
-/

set_option maxRecDepth 4000

abbrev Str := List Char

namespace RustStr

/-- `char::is_whitespace` restricted to the ASCII fragment that occurs in
the repository's data (space, tab, CR, LF). -/
def isWs (c : Char) : Bool := c.isWhitespace

/-- Word character of the regex crate's `\w` / `\b` classes (ASCII fragment). -/
def isWordChar (c : Char) : Bool := c.isAlphanum || c == '_'

/-- `str::trim` (drop Unicode whitespace from both ends; ASCII fragment). -/
def trim (s : Str) : Str :=
  ((s.dropWhile isWs).reverse.dropWhile isWs).reverse

/-- `str::split(sep)` for a one-character separator: always returns at least
one piece, empty pieces included. -/
def splitChar (sep : Char) (s : Str) : List Str :=
  s.foldr
    (fun c acc =>
      match acc with
      | h :: t => if c == sep then [] :: h :: t else (c :: h) :: t
      | [] => [[c]])
    [[]]

/-- Drop a single trailing `'\r'` (used by `lines` for `\r\n` endings). -/
def stripCR (s : Str) : Str :=
  if s.getLast? = some '\r' then s.dropLast else s

/-- `str::lines`: split at `'\n'`, drop one `'\r'` before each split point,
and do not yield a final empty piece produced by a trailing newline. -/
def lines (s : Str) : List Str :=
  let ps := splitChar '\n' s
  let n := ps.length
  let ps := ps.enum.map (fun p => if p.1 + 1 < n then stripCR p.2 else p.2)
  match ps.getLast? with
  | some [] => ps.dropLast
  | _ => ps

def digitsToNat (s : Str) : Nat :=
  s.foldl (fun a c => 10 * a + (c.toNat - 48)) 0

/-- `str::parse::<usize>()`: optional leading `'+'`, one or more ASCII
digits, value below `2^64`. -/
def parseUsize (s : Str) : Option Nat :=
  let t : Str := match s with
    | '+' :: r => r
    | r => r
  if t ≠ [] ∧ t.all Char.isDigit then
    let v := digitsToNat t
    if v < 2 ^ 64 then some v else none
  else none

/-- `pat` is a leading segment of `s`. -/
def strStarts (s pat : Str) : Bool :=
  match s, pat with
  | _, [] => true
  | [], _ :: _ => false
  | a :: as', b :: bs => a == b && strStarts as' bs

/-- `str::contains(needle)` (substring search). -/
def containsSub (hay needle : Str) : Bool :=
  match hay with
  | [] => strStarts [] needle
  | _ :: rest => strStarts hay needle || containsSub rest needle

/-- `str::ends_with(pat)`. -/
def strEnds (s pat : Str) : Bool :=
  strStarts s.reverse pat.reverse

/-- `str::trim_end_matches(pat)` for a one-character pattern: repeatedly
remove the trailing character. -/
def trimEndMatchesChar (c : Char) (s : Str) : Str :=
  (s.reverse.dropWhile (fun d => d == c)).reverse

end RustStr

open RustStr

/-! ## `alpha_match.rs` -/

namespace AlphaMatch

/-- `Term` from `alpha_match.rs`. -/
inductive Term where
  | var (s : Str)
  | fn (name : Str) (args : List Term)

mutual

def decTerm : (a b : Term) → Decidable (a = b)
  | .var x, .var y =>
    if h : x = y then .isTrue (by rw [h]) else .isFalse (by simp [h])
  | .var _, .fn _ _ => .isFalse (by simp)
  | .fn _ _, .var _ => .isFalse (by simp)
  | .fn f a, .fn g b =>
    if hf : f = g then
      match decTermList a b with
      | .isTrue h => .isTrue (by rw [hf, h])
      | .isFalse h => .isFalse (by simp [h])
    else .isFalse (by simp [hf])

def decTermList : (a b : List Term) → Decidable (a = b)
  | [], [] => .isTrue rfl
  | [], _ :: _ => .isFalse (by simp)
  | _ :: _, [] => .isFalse (by simp)
  | x :: xs, y :: ys =>
    match decTerm x y, decTermList xs ys with
    | .isTrue h1, .isTrue h2 => .isTrue (by rw [h1, h2])
    | .isFalse h1, _ => .isFalse (by simp [h1])
    | _, .isFalse h2 => .isFalse (by simp [h2])

end

instance : DecidableEq Term := decTerm

/-- Does an optional neighbouring character count as a word character
(`none` = string edge, a non-word side of a `\b` boundary)? -/
def wordOpt : Option Char → Bool
  | some c => isWordChar c
  | none => false

/-- `\b` between two (optional) neighbouring characters. -/
def boundary (a b : Option Char) : Bool := wordOpt a != wordOpt b

/-- Does the literal `v` with surrounding `\b` anchors match at the current
position, where `prev` is the character just before the position? -/
def matchesAt (prev : Option Char) (v s : Str) : Bool :=
  if v = [] then boundary prev s.head?
  else strStarts s v && boundary prev v.head? && boundary v.getLast? (s.drop v.length).head?

/-- Scanner for `Regex::new(&format!(r"\b{}\b", escape(v))).replace_all(s, repl)`:
left-to-right, non-overlapping; after an empty match the scan advances one
character (the regex crate's empty-match behaviour). -/
def wbAux (v repl : Str) : Option Char → Str → Str
  | prev, [] => if matchesAt prev v [] then repl else []
  | prev, c :: rest =>
    if matchesAt prev v (c :: rest) then
      if hv : v = [] then repl ++ c :: wbAux v repl (some c) rest
      else repl ++ wbAux v repl v.getLast? ((c :: rest).drop v.length)
    else c :: wbAux v repl (some c) rest
termination_by _ s => s.length
decreasing_by
  · simp_wf
  · simp_wf
    have hv1 : 1 ≤ v.length := by
      cases v with
      | nil => exact absurd rfl hv
      | cons a as => simp
    simp [List.length_drop]
    omega
  · simp_wf

/-- Fuel-structural twin of `wbAux` (identical case structure), so that
`wbReplace` evaluates inside the kernel; each step consumes at least one
character, so fuel `s.length + 1` is never exhausted (`wbAuxF_eq`). -/
def wbAuxF (v repl : Str) : Nat → Option Char → Str → Str
  | 0, _, s => s
  | _ + 1, prev, [] => if matchesAt prev v [] then repl else []
  | fuel + 1, prev, c :: rest =>
    if matchesAt prev v (c :: rest) then
      if v = [] then repl ++ c :: wbAuxF v repl fuel (some c) rest
      else repl ++ wbAuxF v repl fuel v.getLast? ((c :: rest).drop v.length)
    else c :: wbAuxF v repl fuel (some c) rest

theorem wbAuxF_eq (v repl : Str) :
    ∀ (fuel : Nat) (prev : Option Char) (s : Str), s.length < fuel →
      wbAuxF v repl fuel prev s = wbAux v repl prev s := by
  intro fuel
  induction fuel with
  | zero => intro prev s h; omega
  | succ fuel ih =>
    intro prev s h
    cases s with
    | nil => rw [wbAuxF, wbAux]
    | cons c rest =>
      rw [wbAuxF, wbAux]
      by_cases hm : matchesAt prev v (c :: rest) = true
      · rw [if_pos hm, if_pos hm]
        by_cases hv : v = []
        · rw [if_pos hv, dif_pos hv, ih (some c) rest (by simpa using h)]
        · rw [if_neg hv, dif_neg hv, ih v.getLast? ((c :: rest).drop v.length) (by
            have hv1 : 1 ≤ v.length := by
              cases v with
              | nil => exact absurd rfl hv
              | cons a t => simp
            simp only [List.length_drop, List.length_cons] at h ⊢
            omega)]
      · rw [if_neg hm, if_neg hm, ih (some c) rest (by simpa using h)]

def wbReplace (v repl s : Str) : Str := wbAuxF v repl (s.length + 1) none s

theorem wbReplace_eq_wbAux (v repl s : Str) : wbReplace v repl s = wbAux v repl none s :=
  wbAuxF_eq v repl (s.length + 1) none s (by omega)

/-- If a token `X<digits>` (pattern `\bX\d+\b`) starts at the current
position, return it and the remainder after it. -/
def xTokenAt (prev : Option Char) (s : Str) : Option (Str × Str) :=
  match s with
  | c :: rest =>
    if c = 'X' ∧ ¬ wordOpt prev then
      let ds := rest.takeWhile Char.isDigit
      let rest' := rest.drop ds.length
      if ds ≠ [] ∧ ¬ wordOpt rest'.head? then some ('X' :: ds, rest') else none
    else none
  | [] => none

def lookupStr (tbl : List (Str × Str)) (k : Str) : Option Str :=
  (tbl.find? (fun p => p.1 = k)).map (·.2)

def vStr (i : Nat) : Str := 'V' :: (Nat.repr i).data

/-- The `\bX\d+\b` `replace_all` pass of `normalize_formula_alpha`: each
distinct `X<digits>` token is canonicalised, in first-occurrence order, to
the next free `V<i>` (the closure with `var_map` and `counter`).  The scan
consumes at least one character per step, so the fuel supplied by `xAux`
below is never exhausted; the recursion is structural on the fuel so that
the function evaluates inside the kernel. -/
def xAuxF : Nat → Option Char → List (Str × Str) → Nat → Str → Str
  | 0, _, _, _, _ => []
  | _ + 1, _, _, _, [] => []
  | fuel + 1, prev, tbl, counter, c :: rest =>
    match xTokenAt prev (c :: rest) with
    | some tr =>
      match lookupStr tbl tr.1 with
      | some repl => repl ++ xAuxF fuel tr.1.getLast? tbl counter tr.2
      | none =>
        vStr counter ++ xAuxF fuel tr.1.getLast? (tbl ++ [(tr.1, vStr counter)]) (counter + 1) tr.2
    | none => c :: xAuxF fuel (some c) tbl counter rest

def xAux (prev : Option Char) (tbl : List (Str × Str)) (counter : Nat) (s : Str) : Str :=
  xAuxF (s.length + 1) prev tbl counter s

/-- Stage 4 of the quantifier regex `!\s*\[([^\]]*)\]\s*:\s*(.*)`: after
`]` and `\s*`, expect `:`, then `\s*`, then group 2 runs to the end of the
line (`.` does not match a newline). -/
def quantAfterClose (g1 : Str) : Str → Option (Str × Str)
  | c4 :: r7 =>
    if c4 = ':' then some (g1, (r7.dropWhile isWs).takeWhile (fun d => d ≠ '\n')) else none
  | [] => none

/-- Stage 3: after group 1 (`[^\]]*`, the maximal run without `]`), expect
the closing `]`, then skip `\s*`. -/
def quantAfterBracket (g1 : Str) : Str → Option (Str × Str)
  | c3 :: r5 =>
    if c3 = ']' then quantAfterClose g1 (r5.dropWhile isWs) else none
  | [] => none

/-- Stage 2: after `!` and `\s*`, expect `[` and capture group 1. -/
def quantAfterBang : Str → Option (Str × Str)
  | c2 :: r3 =>
    if c2 = '[' then
      quantAfterBracket (r3.takeWhile (fun d => d ≠ ']'))
        (r3.drop (r3.takeWhile (fun d => d ≠ ']')).length)
    else none
  | [] => none

/-- Try to match the regex `!\s*\[([^\]]*)\]\s*:\s*(.*)` at the start of
`s`, returning the two capture groups. -/
def quantAt : Str → Option (Str × Str)
  | c :: r1 => if c = '!' then quantAfterBang (r1.dropWhile isWs) else none
  | [] => none

/-- `quant_re.captures(s)`: leftmost match of the quantifier regex. -/
def findQuantCapture : Str → Option (Str × Str)
  | [] => none
  | c :: rest =>
    match quantAt (c :: rest) with
    | some r => some r
    | none => findQuantCapture rest

/-- `normalize_formula_alpha` from `alpha_match.rs`. -/
def normalize_formula_alpha (formula : Str) : Str :=
  let body :=
    match findQuantCapture formula with
    | some (g1, g2) =>
      let vars := (splitChar ',' g1).map trim
      vars.enum.foldl (fun b iv => wbReplace iv.2 (vStr iv.1) b) (trim g2)
    | none => formula
  (xAux none [] 0 body).filter (fun c => !(isWs c))

/-- `split_top_level`: `depth` is the running parenthesis depth (an `i32` in
the source; overflow at `2^31` nestings is not modelled), `cur` the current
piece reversed. -/
def splitTopAux : Str → Int → Str → List Str
  | [], _, cur => [trim cur.reverse]
  | c :: rest, depth, cur =>
    if c = '(' then splitTopAux rest (depth + 1) (c :: cur)
    else if c = ')' then splitTopAux rest (depth - 1) (c :: cur)
    else if c = ',' ∧ depth = 0 then trim cur.reverse :: splitTopAux rest depth []
    else splitTopAux rest depth (c :: cur)

def split_top_level (s : Str) : List Str := splitTopAux s 0 []

theorem length_dropWhile_le (p : Char → Bool) (l : Str) :
    (l.dropWhile p).length ≤ l.length := by
  induction l with
  | nil => simp [List.dropWhile]
  | cons a as ih =>
    by_cases h : p a = true <;> simp [List.dropWhile, h] <;> omega

theorem trim_length_le (s : Str) : (trim s).length ≤ s.length := by
  unfold trim
  simp only [List.length_reverse]
  calc ((s.dropWhile isWs).reverse.dropWhile isWs).length
      ≤ (s.dropWhile isWs).reverse.length := length_dropWhile_le _ _
    _ = (s.dropWhile isWs).length := List.length_reverse _
    _ ≤ s.length := length_dropWhile_le _ _

theorem splitTopAux_mem_length {s : Str} {depth : Int} {cur : Str} {p : Str}
    (hp : p ∈ splitTopAux s depth cur) : p.length ≤ s.length + cur.length := by
  induction s generalizing depth cur with
  | nil =>
    simp only [splitTopAux, List.mem_singleton] at hp
    subst hp
    have := trim_length_le cur.reverse
    simpa using this
  | cons c rest ih =>
    simp only [splitTopAux] at hp
    split at hp
    · have := ih hp
      simp at this ⊢
      omega
    · split at hp
      · have := ih hp
        simp at this ⊢
        omega
      · split at hp
        · rcases List.mem_cons.mp hp with h | h
          · subst h
            have := trim_length_le cur.reverse
            simp at this ⊢
            omega
          · have := ih h
            simp at this ⊢
            omega
        · have := ih hp
          simp at this ⊢
          omega

theorem split_top_level_mem_length {s p : Str} (hp : p ∈ split_top_level s) :
    p.length ≤ s.length := by
  have := splitTopAux_mem_length hp
  simpa using this

/-- `parse_term` from `alpha_match.rs` (fuel-structural so that it evaluates
inside the kernel; each recursion level descends to pieces of
`split_top_level` of the bracket interior, which by
`split_top_level_mem_length` are at least two characters shorter, so the
fuel `s.length + 1` supplied by `parse_term` is never exhausted).  `none`
models the Rust panic: the byte-slice `&s[1..s.len()-1]` is out of range
exactly when the trimmed string is the single character `'('`.  (`parts` is
never empty, as `split_top_level` always yields at least one piece, so
`headI` is exact.) -/
def parseTermF : Nat → Str → Option Term
  | 0, _ => none
  | fuel + 1, s =>
    let t := trim s
    match t with
    | c :: rest =>
      if c = '(' then
        if rest = [] then none
        else
          let parts := split_top_level rest.dropLast
          (parts.tail.mapM (fun p => parseTermF fuel p)).map
            (fun args => Term.fn parts.headI args)
      else some (Term.var t)
    | [] => some (Term.var t)

def parse_term (s : Str) : Option Term := parseTermF (s.length + 1) s

def parse_formula (s : Str) : Option Term := parse_term (trim s)

def lookupTermMap (m : List (Str × Term)) (v : Str) : Option Term :=
  (m.find? (fun p => p.1 = v)).map (·.2)

/-- `match_terms` from `alpha_match.rs`: one-directional structural matching
with a binder map.  The Rust version returns `bool` and mutates the map; on
failure the caller discards the map, so threading it through `Option`
preserves the observable result.  The inner loop over
`a1.iter().zip(a2.iter())` is a fold over the zip (the zip stops at the
shorter list).  Fuel-structural: the fuel bounds the pattern-term depth, so
`sizeOf` of the pattern (supplied by `match_terms`) is always sufficient. -/
def matchTermsF : Nat → Term → Term → List (Str × Term) → Option (List (Str × Term))
  | 0, _, _, _ => none
  | _ + 1, .var v, other, m =>
    match lookupTermMap m v with
    | some existing => if existing = other then some m else none
    | none => some ((v, other) :: m)
  | fuel + 1, .fn f1 a1, other, m =>
    match other with
    | .fn f2 a2 =>
      if f1 = f2 ∧ a1.length = a2.length then
        (a1.zip a2).foldl
          (fun acc p =>
            match acc with
            | some m' => matchTermsF fuel p.1 p.2 m'
            | none => none)
          (some m)
      else none
    | .var _ => none

/-- The depth of the term produced by `parse_term` on a string `s` is at
most `s.length + 1` (each parser level strips a pair of brackets), so this
fuel suffices for `matchTermsF` on such a pattern. -/
def matchFuelOf (s : Str) : Nat := s.length + 1

/-- All ways of inserting `a` into a list (helper for the permutation
enumeration). -/
def insertEverywhere (a : Str) : List Str → List (List Str)
  | [] => [[a]]
  | b :: l => (a :: b :: l) :: (insertEverywhere a l).map (b :: ·)

def permsAux : List Str → List (List Str)
  | [] => [[]]
  | a :: l => (permsAux l).bind (insertEverywhere a)

/-- `vars.iter().permutations(vars.len()).unique()` — the embedding
enumerates all permutations by repeated insertion and deduplicates; the
enumeration order differs from itertools but the loop's observable result
(some permutation matches / a parse panic for some permutation) is
order-insensitive for the inputs arising here. -/
def permsOf (l : List Str) : List (List Str) := (permsAux l).dedup

/-- The permutation loop: return `true` at the first success, `false` if
none succeeds, propagating a parse panic (`none`). -/
def firstTrue : List (List Str) → (List Str → Option Bool) → Option Bool
  | [], _ => some false
  | x :: xs, f =>
    match f x with
    | none => none
    | some true => some true
    | some false => firstTrue xs f

/-- `formulas_match_with_permutations` from `alpha_match.rs`. -/
def formulas_match_with_permutations (formula other_formula : Str) : Option Bool :=
  let vb :=
    match findQuantCapture formula with
    | some (g1, g2) => ((splitChar ',' g1).map trim, trim g2)
    | none => ([], formula)
  let otherNorm := normalize_formula_alpha other_formula
  match parse_formula otherNorm with
  | none => none
  | some parsedOther =>
    if vb.1.length ≤ 3 then
      firstTrue (permsOf vb.1) (fun perm =>
        let bodyPerm := perm.enum.foldl (fun b iv => wbReplace iv.2 (vStr iv.1) b) vb.2
        let normBody := normalize_formula_alpha bodyPerm
        match parse_formula normBody with
        | none => none
        | some parsed => some (matchTermsF (matchFuelOf normBody) parsed parsedOther []).isSome)
    else
      let normBody := normalize_formula_alpha vb.2
      match parse_formula normBody with
      | none => none
      | some parsed => some (matchTermsF (matchFuelOf normBody) parsed parsedOther []).isSome

def formulas_match (formula other_formula : Str) : Option Bool :=
  formulas_match_with_permutations formula other_formula

end AlphaMatch

/-! ### Word-token analysis of the `\b`-substitution scanner (for claim C6) -/

namespace AlphaMatch

/-- Nonempty string of word characters. -/
def isWordStr (w : Str) : Bool := !w.isEmpty && w.all isWordChar

/-- A token of a string: a maximal run of word characters, or a single
non-word character. -/
inductive Tok where
  | word (w : Str)
  | sym (c : Char)
deriving DecidableEq, Repr

def untok : List Tok → Str
  | [] => []
  | .word w :: ts => w ++ untok ts
  | .sym c :: ts => c :: untok ts

/-- Well-formed token list: word tokens are nonempty word strings, symbol
tokens are non-word characters, and no two word tokens are adjacent
(maximality of runs). -/
def WfToks : List Tok → Bool
  | [] => true
  | .sym c :: ts => !isWordChar c && WfToks ts
  | .word w :: [] => isWordStr w
  | .word w :: .sym c :: ts => isWordStr w && WfToks (.sym c :: ts)
  | .word _ :: .word _ :: _ => false

/-- Fuel-structural tokenizer (each step consumes at least one character,
so the fuel supplied by `tokenize` is never exhausted). -/
def tokenizeF : Nat → Str → List Tok
  | 0, _ => []
  | _ + 1, [] => []
  | fuel + 1, c :: rest =>
    if isWordChar c then
      .word (c :: rest.takeWhile isWordChar)
        :: tokenizeF fuel (rest.drop (rest.takeWhile isWordChar).length)
    else .sym c :: tokenizeF fuel rest

def tokenize (s : Str) : List Tok := tokenizeF (s.length + 1) s

theorem takeWhile_append_drop_takeWhile_length (p : Char → Bool) (l : Str) :
    l.takeWhile p ++ l.drop (l.takeWhile p).length = l := by
  induction l with
  | nil => simp
  | cons a as ih =>
    by_cases h : p a = true <;> simp [List.takeWhile, h, ih]

theorem drop_takeWhile_length_eq_dropWhile (p : Char → Bool) (l : Str) :
    l.drop (l.takeWhile p).length = l.dropWhile p := by
  induction l with
  | nil => simp
  | cons a as ih =>
    by_cases h : p a = true <;> simp [List.takeWhile, List.dropWhile, h, ih]

theorem untok_tokenizeF : ∀ (fuel : Nat) (s : Str), s.length < fuel →
    untok (tokenizeF fuel s) = s := by
  intro fuel
  induction fuel with
  | zero => intro s h; omega
  | succ fuel ih =>
    intro s h
    cases s with
    | nil => simp [tokenizeF, untok]
    | cons c rest =>
      rw [tokenizeF]
      by_cases hc : isWordChar c = true
      · rw [if_pos hc, untok]
        rw [ih (rest.drop (rest.takeWhile isWordChar).length) (by
          have := length_dropWhile_le isWordChar rest
          rw [drop_takeWhile_length_eq_dropWhile]
          simp only [List.length_cons] at h
          omega)]
        simp only [List.cons_append, List.cons.injEq, true_and]
        exact takeWhile_append_drop_takeWhile_length isWordChar rest
      · rw [if_neg (by simp [hc]), untok, ih rest (by simpa using h)]

theorem untok_tokenize (s : Str) : untok (tokenize s) = s :=
  untok_tokenizeF (s.length + 1) s (by omega)

theorem dropWhile_cons_head_not (p : Char → Bool) (l : Str) (d : Char) (t : Str)
    (h : l.dropWhile p = d :: t) : p d = false := by
  induction l with
  | nil => simp [List.dropWhile] at h
  | cons a as ih =>
    by_cases hp : p a = true
    · rw [List.dropWhile_cons_of_pos hp] at h
      exact ih h
    · rw [List.dropWhile_cons_of_neg (by simp [hp])] at h
      injection h with h1 h2
      subst h1
      simpa using hp

theorem wfToks_tokenizeF : ∀ (fuel : Nat) (s : Str), s.length < fuel →
    WfToks (tokenizeF fuel s) = true := by
  intro fuel
  induction fuel with
  | zero => intro s h; omega
  | succ fuel ih =>
    intro s h
    cases s with
    | nil => simp [tokenizeF, WfToks]
    | cons c rest =>
      rw [tokenizeF]
      by_cases hc : isWordChar c = true
      · rw [if_pos hc]
        have hword : isWordStr (c :: rest.takeWhile isWordChar) = true := by
          simp only [isWordStr, List.isEmpty_cons, Bool.not_false, List.all_cons, hc,
            Bool.true_and, List.all_eq_true]
          exact fun a ha => List.mem_takeWhile_imp ha
        have hrem := drop_takeWhile_length_eq_dropWhile isWordChar rest
        rcases hrm : rest.drop (rest.takeWhile isWordChar).length with _ | ⟨d, rem'⟩
        · cases fuel with
          | zero => simp [tokenizeF, WfToks, hword]
          | succ fuel2 => simp [tokenizeF, WfToks, hword]
        · have hlt : (d :: rem').length < fuel := by
            rw [← hrm, drop_takeWhile_length_eq_dropWhile]
            have := length_dropWhile_le isWordChar rest
            simp only [List.length_cons] at h
            omega
          have ihr := ih (d :: rem') hlt
          have hd : isWordChar d = false :=
            dropWhile_cons_head_not isWordChar rest d rem' (by rw [← hrem, hrm])
          cases fuel with
          | zero =>
            simp only [List.length_cons] at hlt
            omega
          | succ fuel2 =>
            simp only [tokenizeF, hd, Bool.false_eq_true, if_false] at ihr ⊢
            simp only [WfToks, hd, Bool.not_false, Bool.true_and] at ihr
            simp [WfToks, hword, ihr, hd]
      · rw [if_neg (by simp [hc])]
        have ihr := ih rest (by simpa using h)
        simp [WfToks, hc, ihr]

theorem wfToks_tokenize (s : Str) : WfToks (tokenize s) = true :=
  wfToks_tokenizeF (s.length + 1) s (by omega)

theorem isWordStr_head {w : Str} (h : isWordStr w = true) :
    ∃ a t, w = a :: t ∧ isWordChar a = true := by
  cases w with
  | nil => simp [isWordStr] at h
  | cons a t =>
    refine ⟨a, t, rfl, ?_⟩
    simp only [isWordStr, List.all_cons, Bool.and_eq_true] at h
    exact h.2.1

theorem isWordStr_mem {w : Str} (h : isWordStr w = true) {a : Char} (ha : a ∈ w) :
    isWordChar a = true := by
  simp only [isWordStr, Bool.and_eq_true, List.all_eq_true] at h
  exact h.2 a ha

theorem wordOpt_head_of_wordStr {v : Str} (h : isWordStr v = true) :
    wordOpt v.head? = true := by
  obtain ⟨a, t, hv, ha⟩ := isWordStr_head h
  subst hv
  simpa [wordOpt] using ha

theorem wordOpt_getLast_of_wordStr {v : Str} (h : isWordStr v = true) :
    wordOpt v.getLast? = true := by
  obtain ⟨a, t, hv, _⟩ := isWordStr_head h
  subst hv
  rw [List.getLast?_eq_getLast _ (by simp)]
  simpa [wordOpt] using isWordStr_mem h (List.getLast_mem (l := a :: t) (by simp))

theorem isWordStr_ne_nil {v : Str} (h : isWordStr v = true) : v ≠ [] := by
  obtain ⟨a, t, hv, _⟩ := isWordStr_head h
  subst hv
  simp

/-- A `\bv\b` match cannot start at a non-word character. -/
theorem matchesAt_sym_false {v : Str} (hv : isWordStr v = true) {c : Char}
    (hc : isWordChar c = false) (prev : Option Char) (x : Str) :
    matchesAt prev v (c :: x) = false := by
  obtain ⟨a, t, hveq, ha⟩ := isWordStr_head hv
  rw [matchesAt, if_neg (isWordStr_ne_nil hv)]
  subst hveq
  have hac : (c == a) = false := by
    by_cases hca : c = a
    · subst hca
      rw [hc] at ha
      exact absurd ha (by simp)
    · simp [hca]
  simp [strStarts, hac]

theorem strStarts_append_self : ∀ v x : Str, strStarts (v ++ x) v = true
  | [], _ => by simp [strStarts]
  | a :: t, x => by simp [strStarts, strStarts_append_self t x]

/-- With a non-word character (or the string edge) on the left and on the
right, `\bv\b` does match its own literal occurrence. -/
theorem matchesAt_head_eq {v : Str} (hv : isWordStr v = true) {prev : Option Char}
    (hprev : wordOpt prev = false) {x : Str} (hx : wordOpt x.head? = false) :
    matchesAt prev v (v ++ x) = true := by
  rw [matchesAt, if_neg (isWordStr_ne_nil hv)]
  rw [strStarts_append_self]
  have h1 : boundary prev v.head? = true := by
    rw [boundary, hprev, wordOpt_head_of_wordStr hv]
    rfl
  have h2 : ((v ++ x).drop v.length) = x := List.drop_left v x
  rw [h1, h2, boundary, wordOpt_getLast_of_wordStr hv, hx]
  rfl

theorem strStarts_take {s pat : Str} : strStarts s pat = true ↔ s.take pat.length = pat := by
  induction pat generalizing s with
  | nil => simp [strStarts]
  | cons b bs ih =>
    cases s with
    | nil => simp [strStarts]
    | cons a as =>
      simp only [strStarts, Bool.and_eq_true, beq_iff_eq, List.length_cons,
        List.take_succ_cons, List.cons.injEq]
      exact ⟨fun ⟨h1, h2⟩ => ⟨h1, ih.mp h2⟩, fun ⟨h1, h2⟩ => ⟨h1, ih.mpr h2⟩⟩

/-- With a maximal word run `u ≠ v` at the current position, `\bv\b` does
not match there. -/
theorem matchesAt_head_ne {v u : Str} (hv : isWordStr v = true) (hu : isWordStr u = true)
    (hne : u ≠ v) {x : Str} (hx : wordOpt x.head? = false) (prev : Option Char) :
    matchesAt prev v (u ++ x) = false := by
  rw [matchesAt, if_neg (isWordStr_ne_nil hv)]
  by_cases hs : strStarts (u ++ x) v = true
  · have htake : (u ++ x).take v.length = v := strStarts_take.mp hs
    rcases Nat.lt_or_ge v.length u.length with hlt | hge
    · -- v is a proper leading run of u: the character after the match is a
      -- word character of u, so the right boundary fails
      have hdrop : (u ++ x).drop v.length = u.drop v.length ++ x := by
        rw [List.drop_append_of_le_length (Nat.le_of_lt hlt)]
      have hne2 : u.drop v.length ≠ [] := by
        intro hcon
        have := List.length_drop v.length u
        rw [hcon] at this
        simp at this
        omega
      obtain ⟨d, ds, hds⟩ := List.exists_cons_of_ne_nil hne2
      have hd : isWordChar d = true := by
        refine isWordStr_mem hu (a := d) ?_
        have : d ∈ u.drop v.length := by rw [hds]; simp
        exact List.mem_of_mem_drop this
      have : boundary v.getLast? ((u ++ x).drop v.length).head? = false := by
        rw [hdrop, hds]
        simp only [List.cons_append, List.head?_cons]
        rw [boundary, wordOpt_getLast_of_wordStr hv]
        simp [wordOpt, hd]
      rw [this]
      simp
    · -- |v| ≥ |u|: v = u ++ v₂; a nonempty v₂ would have to start with the
      -- non-word head of x, and v₂ = [] contradicts u ≠ v
      exfalso
      have htake2 : (u ++ x).take v.length = u ++ x.take (v.length - u.length) := by
        rw [List.take_append_eq_append_take]
        congr 1
        rw [List.take_of_length_le hge]
      rw [htake2] at htake
      rcases hxt : x.take (v.length - u.length) with _ | ⟨d, ds⟩
      · rw [hxt] at htake
        simp at htake
        exact hne htake
      · rw [hxt] at htake
        have hd : d ∈ v := by rw [← htake]; simp
        have hdw : isWordChar d = true := isWordStr_mem hv hd
        have hdx : x.head? = some d := by
          cases x with
          | nil => simp at hxt
          | cons x0 xs =>
            rcases Nat.eq_zero_or_pos (v.length - u.length) with hz | hp
            · rw [hz] at hxt; simp at hxt
            · obtain ⟨m, hm⟩ := Nat.exists_eq_succ_of_ne_zero (Nat.pos_iff_ne_zero.mp hp)
              rw [hm] at hxt
              simp only [List.take_succ_cons, List.cons.injEq] at hxt
              simp [hxt.1]
        rw [hdx] at hx
        simp [wordOpt, hdw] at hx
  · simp only [Bool.not_eq_true] at hs
    rw [hs]
    simp

/-- Scanning inside a word run (previous character is a word character)
produces no matches. -/
theorem scan_word_interior {v repl : Str} (hv : isWordStr v = true) :
    ∀ (u : Str), (∀ a ∈ u, isWordChar a = true) → ∀ (p : Char), isWordChar p = true →
      ∀ rest, wbAux v repl (some p) (u ++ rest) = u ++ wbAux v repl (some (u.getLastD p)) rest := by
  intro u
  induction u with
  | nil => simp [List.getLastD]
  | cons a u' ih =>
    intro hu p hp rest
    have hmat : matchesAt (some p) v (a :: (u' ++ rest)) = false := by
      rw [matchesAt, if_neg (isWordStr_ne_nil hv)]
      have : boundary (some p) v.head? = false := by
        rw [boundary, wordOpt_head_of_wordStr hv]
        simp [wordOpt, hp]
      rw [this]
      simp
    rw [List.cons_append, wbAux, if_neg (by rw [hmat]; simp)]
    rw [ih (fun b hb => hu b (by simp [hb])) a (hu a (by simp)) rest]
    simp only [List.cons_append, List.getLastD_cons]

/-- Token-level effect of one `\b`-substitution pass. -/
def substTok (v repl : Str) : Tok → Tok
  | .word u => .word (if u = v then repl else u)
  | .sym c => .sym c

theorem wfToks_tail_sym {c : Char} {ts : List Tok} (h : WfToks (.sym c :: ts) = true) :
    isWordChar c = false ∧ WfToks ts = true := by
  simp only [WfToks, Bool.and_eq_true, Bool.not_eq_true'] at h
  exact h

theorem wfToks_word_cases {u : Str} {ts : List Tok} (h : WfToks (.word u :: ts) = true) :
    isWordStr u = true ∧
      (ts = [] ∨ ∃ c ts', ts = .sym c :: ts' ∧ isWordChar c = false ∧ WfToks ts = true) := by
  cases ts with
  | nil =>
    simp only [WfToks] at h
    exact ⟨h, Or.inl rfl⟩
  | cons t ts' =>
    cases t with
    | word w => simp [WfToks] at h
    | sym c =>
      simp only [WfToks, Bool.and_eq_true, Bool.not_eq_true'] at h
      exact ⟨h.1, Or.inr ⟨c, ts', rfl, h.2.1, by simp [WfToks, h.2.1, h.2.2]⟩⟩

theorem untok_head_sym_cases {ts : List Tok}
    (h : ts = [] ∨ ∃ c ts', ts = .sym c :: ts' ∧ isWordChar c = false ∧ WfToks ts = true) :
    wordOpt (untok ts).head? = false := by
  rcases h with h | ⟨c, ts', hts, hc, _⟩
  · subst h; simp [untok, wordOpt]
  · subst hts; simp [untok, wordOpt, hc]

theorem wbAux_nil_of_wordStr {v repl : Str} (hv : isWordStr v = true) (prev : Option Char) :
    wbAux v repl prev [] = [] := by
  rw [wbAux, if_neg]
  rw [matchesAt, if_neg (isWordStr_ne_nil hv)]
  obtain ⟨a, t, hveq, _⟩ := isWordStr_head hv
  rw [hveq]
  simp [strStarts]

theorem wbAux_sym_step {v repl : Str} (hv : isWordStr v = true) {c : Char}
    (hc : isWordChar c = false) (prev : Option Char) (x : Str) :
    wbAux v repl prev (c :: x) = c :: wbAux v repl (some c) x := by
  rw [wbAux, if_neg (by rw [matchesAt_sym_false hv hc]; simp)]

theorem wbAux_match_step {v repl : Str} (hv : isWordStr v = true) (prev : Option Char) (x : Str)
    (hm : matchesAt prev v (v ++ x) = true) :
    wbAux v repl prev (v ++ x) = repl ++ wbAux v repl v.getLast? x := by
  obtain ⟨v0, vs, hveq, _⟩ := isWordStr_head hv
  conv_lhs => rw [hveq, List.cons_append, wbAux]
  rw [if_pos (by rw [← List.cons_append, ← hveq]; exact hm)]
  rw [dif_neg (by rw [← hveq]; exact isWordStr_ne_nil hv)]
  rw [← List.cons_append, ← hveq, List.drop_left]

/-- Core lemma: on a well-formed token decomposition, the `\b`-substitution
scanner acts exactly as the per-token substitution. -/
theorem wbAux_untok {v repl : Str} (hv : isWordStr v = true) :
    ∀ n (ts : List Tok), ts.length ≤ n → WfToks ts = true →
      ∀ prev, wordOpt prev = false →
        wbAux v repl prev (untok ts) = untok (ts.map (substTok v repl)) := by
  intro n
  induction n with
  | zero =>
    intro ts hlen _ prev _
    have : ts = [] := List.length_eq_zero.mp (Nat.le_zero.mp hlen)
    subst this
    simp only [untok, List.map_nil]
    exact wbAux_nil_of_wordStr hv prev
  | succ n ih =>
    intro ts hlen hwf prev hprev
    cases ts with
    | nil =>
      simp only [untok, List.map_nil]
      exact wbAux_nil_of_wordStr hv prev
    | cons t ts' =>
      cases t with
      | sym c =>
        obtain ⟨hc, hwf'⟩ := wfToks_tail_sym hwf
        rw [untok, wbAux_sym_step hv hc prev]
        rw [ih ts' (by simpa using Nat.lt_succ_iff.mp (Nat.lt_of_lt_of_le (by simp) hlen))
          hwf' (some c) (by simp [wordOpt, hc])]
        rfl
      | word u =>
        obtain ⟨hu, hrest⟩ := wfToks_word_cases hwf
        have hx : wordOpt (untok ts').head? = false := untok_head_sym_cases hrest
        by_cases huv : u = v
        · have hm : matchesAt prev v (v ++ untok ts') = true := matchesAt_head_eq hv hprev hx
          have step1 : wbAux v repl prev (untok (Tok.word u :: ts'))
              = repl ++ wbAux v repl v.getLast? (untok ts') := by
            rw [untok, huv]
            exact wbAux_match_step hv prev _ hm
          rw [step1]
          rcases hrest with h | ⟨c, ts'', hts, hc, hwfs⟩
          · subst h
            rw [show untok ([] : List Tok) = [] from rfl, wbAux_nil_of_wordStr hv]
            simp [substTok, huv, untok]
          · subst hts
            rw [untok, wbAux_sym_step hv hc]
            obtain ⟨hc2, hwf2⟩ := wfToks_tail_sym hwfs
            rw [ih ts'' (by
                simp only [List.length_cons] at hlen ⊢
                omega) hwf2 (some c) (by simp [wordOpt, hc])]
            simp [substTok, huv, untok]
        · have hm : matchesAt prev v (u ++ untok ts') = false := matchesAt_head_ne hv hu huv hx prev
          obtain ⟨u0, us, huu, hu0⟩ := isWordStr_head hu
          rw [huu] at hm
          simp only [List.cons_append] at hm
          rw [untok, huu]
          simp only [List.cons_append]
          rw [wbAux, if_neg (by rw [hm]; simp)]
          rw [scan_word_interior hv us (fun a ha => isWordStr_mem hu (by rw [huu]; simp [ha]))
            u0 hu0 (untok ts')]
          have hne2 : u0 :: us ≠ v := by rw [← huu]; exact huv
          rcases hrest with h | ⟨c, ts'', hts, hc, hwfs⟩
          · subst h
            rw [show untok ([] : List Tok) = [] from rfl, wbAux_nil_of_wordStr hv]
            simp [substTok, untok, huu, hne2]
          · subst hts
            rw [untok, wbAux_sym_step hv hc]
            obtain ⟨hc2, hwf2⟩ := wfToks_tail_sym hwfs
            rw [ih ts'' (by
                simp only [List.length_cons] at hlen ⊢
                omega) hwf2 (some c) (by simp [wordOpt, hc])]
            simp [substTok, untok, huu, hne2]

theorem wfToks_map_subst {v repl : Str} (hr : isWordStr repl = true) :
    ∀ ts : List Tok, WfToks ts = true → WfToks (ts.map (substTok v repl)) = true := by
  intro ts
  induction ts with
  | nil => simp [WfToks]
  | cons t ts' ih =>
    intro hwf
    cases t with
    | sym c =>
      obtain ⟨hc, hwf'⟩ := wfToks_tail_sym hwf
      have := ih hwf'
      simp only [List.map_cons, substTok]
      cases hts : ts'.map (substTok v repl) with
      | nil => simp [WfToks, hc]
      | cons t2 rest2 =>
        rw [hts] at this
        simp [WfToks, hc, this]
    | word u =>
      obtain ⟨hu, hrest⟩ := wfToks_word_cases hwf
      have hword : isWordStr (if u = v then repl else u) = true := by
        by_cases h : u = v <;> simp [h, hr, hu]
      rcases hrest with h | ⟨c, ts'', hts, hc, hwfs⟩
      · subst h
        simp [WfToks, substTok, hword]
      · subst hts
        obtain ⟨hc2, hwf2⟩ := wfToks_tail_sym hwfs
        have := ih hwfs
        simp only [List.map_cons, substTok] at this ⊢
        cases hts2 : ts''.map (substTok v repl) with
        | nil => simp [WfToks, hword, hc]
        | cons t2 rest2 =>
          rw [hts2] at this
          simp only [WfToks, hc, Bool.not_false, Bool.true_and] at this
          simp [WfToks, hword, hc, this]

/-- Lifting a whole sequence of `\b`-substitutions to the token level. -/
theorem foldl_wbReplace_untok :
    ∀ (prs : List (Str × Str)) (ts : List Tok), WfToks ts = true →
      (∀ p ∈ prs, isWordStr p.1 = true ∧ isWordStr p.2 = true) →
      prs.foldl (fun b p => wbReplace p.1 p.2 b) (untok ts)
        = untok (prs.foldl (fun l p => l.map (substTok p.1 p.2)) ts) := by
  intro prs
  induction prs with
  | nil => intro ts _ _; rfl
  | cons p prs' ih =>
    intro ts hwf hall
    have h1 : wbReplace p.1 p.2 (untok ts) = untok (ts.map (substTok p.1 p.2)) := by
      rw [wbReplace_eq_wbAux]
      exact wbAux_untok (hall p (by simp)).1 ts.length ts le_rfl hwf none rfl
    simp only [List.foldl_cons]
    rw [h1]
    exact ih _ (wfToks_map_subst (hall p (by simp)).2 ts hwf)
      (fun q hq => hall q (by simp [hq]))

/-- A fold of per-token maps is the map of the per-token fold. -/
theorem foldl_map_eq_map_fold :
    ∀ (prs : List (Str × Str)) (ts : List Tok),
      prs.foldl (fun l p => l.map (substTok p.1 p.2)) ts
        = ts.map (fun t => prs.foldl (fun t p => substTok p.1 p.2 t) t) := by
  intro prs
  induction prs with
  | nil => intro ts; simp
  | cons p prs' ih =>
    intro ts
    simp only [List.foldl_cons]
    rw [ih (ts.map (substTok p.1 p.2)), List.map_map]
    rfl

/-- The string-level value of the composite substitution on one word token. -/
def tokVal (prs : List (Str × Str)) (u : Str) : Str :=
  prs.foldl (fun u p => if u = p.1 then p.2 else u) u

theorem foldl_substTok_word (prs : List (Str × Str)) (u : Str) :
    prs.foldl (fun t p => substTok p.1 p.2 t) (.word u) = .word (tokVal prs u) := by
  induction prs generalizing u with
  | nil => rfl
  | cons p prs' ih => simp only [List.foldl_cons, substTok, tokVal] at ih ⊢; exact ih _

theorem foldl_substTok_sym (prs : List (Str × Str)) (c : Char) :
    prs.foldl (fun t p => substTok p.1 p.2 t) (.sym c) = .sym c := by
  induction prs with
  | nil => rfl
  | cons p prs' ih => simpa [substTok] using ih

theorem tokVal_of_no_hit {prs : List (Str × Str)} {u : Str}
    (h : ∀ p ∈ prs, u ≠ p.1) : tokVal prs u = u := by
  induction prs with
  | nil => rfl
  | cons p prs' ih =>
    simp only [tokVal, List.foldl_cons, if_neg (h p (by simp))]
    exact ih (fun q hq => h q (by simp [hq]))

/-! Digit facts for `Nat.repr`, needed because the canonical variable names
`V0, V1, …` are produced with `format!("V{}", i)`. -/

theorem digitChar_isDigit_of_lt10 {m : Nat} (h : m < 10) :
    (Nat.digitChar m).isDigit = true := by
  interval_cases m <;> decide

theorem toDigitsCore_all_digit :
    ∀ (fuel n : Nat) (ds : Str), (∀ c ∈ ds, c.isDigit = true) →
      ∀ c ∈ Nat.toDigitsCore 10 fuel n ds, c.isDigit = true := by
  intro fuel
  induction fuel with
  | zero => intro n ds hds; simpa [Nat.toDigitsCore] using hds
  | succ fuel ih =>
    intro n ds hds c hc
    rw [Nat.toDigitsCore] at hc
    by_cases h : n / 10 = 0
    · rw [if_pos h] at hc
      rcases List.mem_cons.mp hc with h1 | h1
      · subst h1; exact digitChar_isDigit_of_lt10 (Nat.mod_lt _ (by norm_num))
      · exact hds c h1
    · rw [if_neg h] at hc
      refine ih (n / 10) _ ?_ c hc
      intro d hd
      rcases List.mem_cons.mp hd with h1 | h1
      · subst h1; exact digitChar_isDigit_of_lt10 (Nat.mod_lt _ (by norm_num))
      · exact hds d h1

theorem toDigitsCore_ne_nil :
    ∀ (fuel n : Nat) (ds : Str), Nat.toDigitsCore 10 (fuel + 1) n ds ≠ [] := by
  intro fuel
  induction fuel with
  | zero =>
    intro n ds
    rw [Nat.toDigitsCore]
    by_cases h : n / 10 = 0
    · simp [h]
    · rw [if_neg h]
      simp [Nat.toDigitsCore]
  | succ fuel ih =>
    intro n ds
    rw [Nat.toDigitsCore]
    by_cases h : n / 10 = 0
    · simp [h]
    · rw [if_neg h]
      exact ih (n / 10) _

theorem repr_data_all_digit (n : Nat) : ∀ c ∈ (Nat.repr n).data, c.isDigit = true := by
  intro c hc
  have : (Nat.repr n).data = Nat.toDigits 10 n := rfl
  rw [this, Nat.toDigits] at hc
  exact toDigitsCore_all_digit (n + 1) n [] (by simp) c hc

theorem repr_data_ne_nil (n : Nat) : (Nat.repr n).data ≠ [] := by
  have : (Nat.repr n).data = Nat.toDigits 10 n := rfl
  rw [this, Nat.toDigits]
  exact toDigitsCore_ne_nil n n []

theorem isDigit_isWordChar {c : Char} (h : c.isDigit = true) : isWordChar c = true := by
  simp [isWordChar, Char.isAlphanum, h]

theorem isWordStr_vStr (i : Nat) : isWordStr (vStr i) = true := by
  have h1 : isWordChar 'V' = true := by decide
  simp only [isWordStr, vStr, List.isEmpty_cons, Bool.not_false, List.all_cons, h1, Bool.true_and,
    List.all_eq_true]
  intro c hc
  exact isDigit_isWordChar (repr_data_all_digit i c hc)

/-- Does a string have the canonical shape `V<digits>`? -/
def isVForm (s : Str) : Bool :=
  match s with
  | 'V' :: r => !r.isEmpty && r.all Char.isDigit
  | _ => false

theorem isVForm_vStr (i : Nat) : isVForm (vStr i) = true := by
  show (!(Nat.repr i).data.isEmpty && (Nat.repr i).data.all Char.isDigit) = true
  rw [Bool.and_eq_true]
  constructor
  · rw [Bool.not_eq_true']
    cases h : (Nat.repr i).data with
    | nil => exact absurd h (repr_data_ne_nil i)
    | cons a t => rfl
  · rw [List.all_eq_true]
    intro c hc
    exact repr_data_all_digit i c hc

theorem snd_mem_of_mem_enumFrom {xs : List Str} :
    ∀ {i : Nat} {q : Nat × Str}, q ∈ xs.enumFrom i → q.2 ∈ xs := by
  induction xs with
  | nil => intro i q h; simp [List.enumFrom] at h
  | cons x xs' ih =>
    intro i q h
    rw [List.enumFrom] at h
    rcases List.mem_cons.mp h with h1 | h1
    · subst h1; simp
    · simp [ih h1]

/-- Evaluating the enumerated canonicalisation pairs on the `k`-th variable. -/
theorem tokVal_enum_pairs {xs : List Str} (hnd : xs.Nodup)
    (hnV : ∀ x ∈ xs, isVForm x = false) :
    ∀ (i k : Nat) (hk : k < xs.length),
      tokVal ((xs.enumFrom i).map (fun p => (p.2, vStr p.1))) (xs.get ⟨k, hk⟩)
        = vStr (i + k) := by
  induction xs with
  | nil => intro i k hk; simp at hk
  | cons x xs' ih =>
    intro i k hk
    rw [List.enumFrom]
    cases k with
    | zero =>
      simp only [List.get, List.map_cons]
      simp only [tokVal, List.foldl_cons]
      simp only [if_true, eq_self_iff_true]
      have hnohit :
          tokVal ((xs'.enumFrom (i + 1)).map (fun p => (p.2, vStr p.1))) (vStr i) = vStr i := by
        refine tokVal_of_no_hit ?_
        intro p hp hcon
        simp only [List.mem_map] at hp
        obtain ⟨q, hq, hpq⟩ := hp
        have hq2 : q.2 ∈ xs' := snd_mem_of_mem_enumFrom hq
        have hVf : isVForm q.2 = false := hnV q.2 (by simp [hq2])
        rw [← hpq] at hcon
        simp only at hcon
        rw [← hcon, isVForm_vStr i] at hVf
        exact absurd hVf (by simp)
      simp only [tokVal] at hnohit
      rw [hnohit, Nat.add_zero]
    | succ k' =>
      simp only [List.get]
      have hne : xs'.get ⟨k', by simpa using hk⟩ ≠ x := by
        intro hcon
        have hx : x ∉ xs' := (List.nodup_cons.mp hnd).1
        exact hx (hcon ▸ List.get_mem xs' _ _)
      simp only [List.map_cons, tokVal, List.foldl_cons]
      rw [if_neg hne]
      have := ih (List.nodup_cons.mp hnd).2 (fun y hy => hnV y (by simp [hy])) (i + 1) k'
        (by simpa using hk)
      simp only [tokVal] at this
      rw [this]
      congr 1
      omega

/-- Evaluating the renaming pairs on the `k`-th variable. -/
theorem tokVal_zip {vs : List Str} :
    ∀ (ws : List Str), vs.Nodup → (∀ w ∈ ws, w ∉ vs) →
      ∀ (k : Nat) (hk : k < vs.length) (hk2 : k < ws.length),
        tokVal (vs.zip ws) (vs.get ⟨k, hk⟩) = ws.get ⟨k, hk2⟩ := by
  induction vs with
  | nil => intro ws _ _ k hk; simp at hk
  | cons v vs' ih =>
    intro ws hnd hdisj k hk hk2
    cases ws with
    | nil => simp at hk2
    | cons w ws' =>
      rw [List.zip_cons_cons]
      cases k with
      | zero =>
        simp only [List.get]
        simp only [tokVal, List.foldl_cons]
        simp only [if_true, eq_self_iff_true]
        have hnohit : tokVal (vs'.zip ws') w = w := by
          refine tokVal_of_no_hit ?_
          intro p hp hcon
          have hp1 : p.1 ∈ vs' := (List.of_mem_zip hp).1
          have hw : w ∉ v :: vs' := hdisj w (by simp)
          rw [hcon] at hw
          exact hw (by simp [hp1])
        simp only [tokVal] at hnohit
        rw [hnohit]
      | succ k' =>
        simp only [List.get]
        have hne : vs'.get ⟨k', by simpa using hk⟩ ≠ v := by
          intro hcon
          have hx : v ∉ vs' := (List.nodup_cons.mp hnd).1
          exact hx (hcon ▸ List.get_mem vs' _ _)
        simp only [tokVal, List.foldl_cons]
        rw [if_neg hne]
        exact ih ws' (List.nodup_cons.mp hnd).2
          (fun y hy => fun hmem => hdisj y (by simp [hy]) (by simp [hmem]))
          k' (by simpa using hk) (by simpa using hk2)

/-- Composite per-token action: renaming then canonicalising the new names
equals canonicalising the old names. -/
theorem tok_composite {vs ws : List Str} (hlen : vs.length = ws.length)
    (hndv : vs.Nodup) (hndw : ws.Nodup)
    (hdisj : ∀ w ∈ ws, w ∉ vs)
    (hnVv : ∀ v ∈ vs, isVForm v = false) (hnVw : ∀ w ∈ ws, isVForm w = false)
    (u : Str) (hu : u ∈ vs ∨ (u ∉ vs ∧ u ∉ ws)) :
    tokVal (ws.enum.map (fun p => (p.2, vStr p.1))) (tokVal (vs.zip ws) u)
      = tokVal (vs.enum.map (fun p => (p.2, vStr p.1))) u := by
  rcases hu with hu | ⟨hu1, hu2⟩
  · obtain ⟨k, hku⟩ := List.mem_iff_get.mp hu
    have hk2 : k.1 < ws.length := by
      have := k.2
      omega
    rw [← hku]
    rw [show vs.get k = vs.get ⟨k.1, k.2⟩ from rfl]
    rw [tokVal_zip ws hndv hdisj k.1 k.2 hk2]
    have h1 := tokVal_enum_pairs hndw hnVw 0 k.1 hk2
    have h2 := tokVal_enum_pairs hndv hnVv 0 k.1 k.2
    rw [show ws.enum = ws.enumFrom 0 from rfl, show vs.enum = vs.enumFrom 0 from rfl]
    rw [h1, h2]
  · have hinner : tokVal (vs.zip ws) u = u := by
      refine tokVal_of_no_hit ?_
      intro p hp hcon
      exact hu1 (hcon ▸ (List.of_mem_zip hp).1)
    rw [hinner]
    have houter : tokVal (ws.enum.map (fun p => (p.2, vStr p.1))) u = u := by
      refine tokVal_of_no_hit ?_
      intro p hp hcon
      simp only [List.mem_map] at hp
      obtain ⟨q, hq, hpq⟩ := hp
      rw [show ws.enum = ws.enumFrom 0 from rfl] at hq
      have : q.2 ∈ ws := snd_mem_of_mem_enumFrom hq
      rw [← hpq] at hcon
      exact hu2 (hcon ▸ this)
    have hrhs : tokVal (vs.enum.map (fun p => (p.2, vStr p.1))) u = u := by
      refine tokVal_of_no_hit ?_
      intro p hp hcon
      simp only [List.mem_map] at hp
      obtain ⟨q, hq, hpq⟩ := hp
      rw [show vs.enum = vs.enumFrom 0 from rfl] at hq
      have : q.2 ∈ vs := snd_mem_of_mem_enumFrom hq
      rw [← hpq] at hcon
      exact hu1 (hcon ▸ this)
    rw [houter, hrhs]

/-! ### The normalization pipeline on formulas of the shape `![vars]:body` -/

/-- A formula with a leading quantifier over the variable list `vs`
(whitespace-free rendering; the quantifier regex treats the whitespace as
optional). -/
def mkQuantFormula (vs : List Str) (body : Str) : Str :=
  '!' :: '[' :: List.intercalate [','] vs ++ ']' :: ':' :: body

/-- Modelled from the spec: a *consistent renaming of the bound
(leading-quantifier) variables* of a formula — each bound name `vs[i]` is
replaced by `ws[i]` throughout the body, with the same word-boundary
textual substitution that the normalizer itself uses.  The renamed formula
is `mkQuantFormula ws (renameBound vs ws body)`. -/
def renameBound (vs ws : List Str) (body : Str) : Str :=
  (vs.zip ws).foldl (fun b p => wbReplace p.1 p.2 b) body

theorem takeWhile_append_all {p : Char → Bool} {l1 : Str} (h : ∀ a ∈ l1, p a = true)
    (l2 : Str) : (l1 ++ l2).takeWhile p = l1 ++ l2.takeWhile p := by
  induction l1 with
  | nil => simp
  | cons a t ih =>
    simp only [List.cons_append, List.takeWhile_cons, h a (by simp), if_true]
    rw [ih (fun b hb => h b (by simp [hb]))]

theorem takeWhile_all_self {p : Char → Bool} {l : Str} (h : ∀ a ∈ l, p a = true) :
    l.takeWhile p = l := by
  have := takeWhile_append_all h ([] : Str)
  simpa using this

theorem dropWhile_head_self {p : Char → Bool} {l : Str}
    (h : ∀ c, l.head? = some c → p c = false) : l.dropWhile p = l := by
  cases l with
  | nil => rfl
  | cons a t =>
    rw [List.dropWhile_cons_of_neg]
    simp [h a rfl]

theorem trim_eq_self_of_edges {s : Str}
    (hh : ∀ c, s.head? = some c → isWs c = false)
    (hl : ∀ c, s.getLast? = some c → isWs c = false) : trim s = s := by
  unfold trim
  rw [dropWhile_head_self hh]
  rw [dropWhile_head_self (by
    intro c hc
    rw [List.head?_reverse] at hc
    exact hl c hc)]
  exact List.reverse_reverse s

theorem intercalate_comma_cons2 (v v2 : Str) (vs'' : List Str) :
    List.intercalate [','] (v :: v2 :: vs'')
      = v ++ ',' :: List.intercalate [','] (v2 :: vs'') := by
  simp [List.intercalate, List.intersperse]

theorem mem_intercalate_comma {vs : List Str} {c : Char}
    (hc : c ∈ List.intercalate [','] vs) : c = ',' ∨ ∃ v ∈ vs, c ∈ v := by
  induction vs with
  | nil => simp [List.intercalate] at hc
  | cons v vs' ih =>
    cases vs' with
    | nil =>
      simp [List.intercalate, List.intersperse] at hc
      exact Or.inr ⟨v, by simp, hc⟩
    | cons v2 vs'' =>
      rw [intercalate_comma_cons2] at hc
      rcases List.mem_append.mp hc with h | h
      · exact Or.inr ⟨v, by simp, h⟩
      · rcases List.mem_cons.mp h with h2 | h2
        · exact Or.inl h2
        · rcases ih h2 with h3 | ⟨u, hu, hcu⟩
          · exact Or.inl h3
          · exact Or.inr ⟨u, by simp [hu], hcu⟩

/-- The quantifier regex captures exactly the variable block and the body on
a formula of the shape `![vars]:body`. -/
theorem findQuant_mkQuant {vs : List Str} {body : Str}
    (hbr : ']' ∉ List.intercalate [','] vs)
    (hnl : '\n' ∉ body)
    (hh : ∀ c, body.head? = some c → isWs c = false) :
    findQuantCapture (mkQuantFormula vs body) = some (List.intercalate [','] vs, body) := by
  have hg1 : (List.intercalate [','] vs ++ ']' :: ':' :: body).takeWhile (fun d => d ≠ ']')
      = List.intercalate [','] vs := by
    rw [takeWhile_append_all (fun a ha => by
      simp only [ne_eq, decide_eq_true_eq]
      intro hcon
      exact hbr (hcon ▸ ha))]
    simp [List.takeWhile_cons]
  have h3 : quantAfterClose (List.intercalate [','] vs) (':' :: body)
      = some (List.intercalate [','] vs, body) := by
    rw [quantAfterClose, if_pos rfl]
    rw [dropWhile_head_self (p := isWs) hh]
    rw [takeWhile_all_self (by
      intro a ha
      simp only [ne_eq, decide_eq_true_eq]
      intro hcon
      exact hnl (hcon ▸ ha))]
  have h2 : quantAfterBracket (List.intercalate [','] vs) (']' :: ':' :: body)
      = some (List.intercalate [','] vs, body) := by
    rw [quantAfterBracket, if_pos rfl]
    rw [dropWhile_head_self (p := isWs) (by intro c hc; injection hc with h; subst h; decide)]
    exact h3
  have h1 : quantAfterBang ('[' :: (List.intercalate [','] vs ++ ']' :: ':' :: body))
      = some (List.intercalate [','] vs, body) := by
    rw [quantAfterBang, if_pos rfl, hg1, List.drop_left]
    exact h2
  have hfq : ∀ (c : Char) (rest : Str) (r : Str × Str), quantAt (c :: rest) = some r →
      findQuantCapture (c :: rest) = some r := by
    intro c rest r h
    simp only [findQuantCapture]
    rw [h]
  have hq : quantAt (mkQuantFormula vs body) = some (List.intercalate [','] vs, body) := by
    show (if '!' = '!' then
        quantAfterBang (('[' :: (List.intercalate [','] vs ++ ']' :: ':' :: body)).dropWhile isWs)
      else none) = some (List.intercalate [','] vs, body)
    rw [if_pos rfl]
    rw [List.dropWhile_cons_of_neg (by decide)]
    exact h1
  rw [mkQuantFormula] at hq ⊢
  exact hfq _ _ _ hq

theorem splitChar_ne_nil (sep : Char) (s : Str) : splitChar sep s ≠ [] := by
  induction s with
  | nil => simp [splitChar]
  | cons c rest ih =>
    rw [splitChar, List.foldr_cons]
    rcases h : splitChar sep rest with _ | ⟨h0, t⟩
    · exact absurd h ih
    · rw [splitChar] at h
      rw [h]
      by_cases hc : (c == sep) = true <;> simp [hc]

theorem splitChar_cons (sep c : Char) (s : Str) :
    splitChar sep (c :: s) =
      if c = sep then [] :: splitChar sep s
      else (c :: (splitChar sep s).headI) :: (splitChar sep s).tail := by
  rw [splitChar, List.foldr_cons]
  rcases h : splitChar sep s with _ | ⟨h0, t⟩
  · exact absurd h (splitChar_ne_nil sep s)
  · rw [splitChar] at h
    rw [h]
    by_cases hc : c = sep <;> simp [hc]

theorem splitChar_append_no_sep {sep : Char} {a : Str} (ha : sep ∉ a) (s : Str) :
    splitChar sep (a ++ s) =
      (a ++ (splitChar sep s).headI) :: (splitChar sep s).tail := by
  induction a with
  | nil =>
    simp only [List.nil_append]
    rcases h : splitChar sep s with _ | ⟨h0, t⟩
    · exact absurd h (splitChar_ne_nil sep s)
    · simp
  | cons c a' ih =>
    rw [List.cons_append, splitChar_cons, if_neg (by intro hcon; exact ha (by simp [hcon]))]
    rw [ih (fun hmem => ha (by simp [hmem]))]
    simp

theorem splitChar_intercalate {vs : List Str} (hne : vs ≠ [])
    (hsep : ∀ v ∈ vs, ',' ∉ v) :
    splitChar ',' (List.intercalate [','] vs) = vs := by
  induction vs with
  | nil => exact absurd rfl hne
  | cons v vs' ih =>
    cases vs' with
    | nil =>
      have h1 : List.intercalate [','] [v] = v := by simp [List.intercalate, List.intersperse]
      rw [h1]
      have h2 := splitChar_append_no_sep (hsep v (by simp)) ([] : Str)
      rw [List.append_nil] at h2
      rw [h2]
      simp [splitChar]
    | cons v2 vs'' =>
      rw [intercalate_comma_cons2]
      rw [splitChar_append_no_sep (hsep v (by simp)) (',' :: List.intercalate [','] (v2 :: vs''))]
      rw [splitChar_cons, if_pos rfl]
      rw [ih (by simp) (fun u hu => hsep u (by simp [hu]))]
      simp

theorem untok_append (ts1 ts2 : List Tok) : untok (ts1 ++ ts2) = untok ts1 ++ untok ts2 := by
  induction ts1 with
  | nil => rfl
  | cons t ts ih =>
    cases t <;> simp [untok, ih]

theorem wfToks_word_mem : ∀ {ts : List Tok}, WfToks ts = true →
    ∀ {u : Str}, Tok.word u ∈ ts → isWordStr u = true := by
  intro ts
  induction ts with
  | nil => intro _ u h; simp at h
  | cons t ts' ih =>
    intro hwf u hu
    rcases List.mem_cons.mp hu with h | h
    · subst h
      exact (wfToks_word_cases hwf).1
    · cases t with
      | sym c => exact ih (wfToks_tail_sym hwf).2 h
      | word w =>
        rcases (wfToks_word_cases hwf).2 with h2 | ⟨c, ts'', hts, _, hwfs⟩
        · subst h2; simp at h
        · subst hts
          exact ih hwfs h

theorem wfToks_sym_mem : ∀ {ts : List Tok}, WfToks ts = true →
    ∀ {c : Char}, Tok.sym c ∈ ts → isWordChar c = false := by
  intro ts
  induction ts with
  | nil => intro _ c h; simp at h
  | cons t ts' ih =>
    intro hwf c hc
    rcases List.mem_cons.mp hc with h | h
    · subst h
      exact (wfToks_tail_sym hwf).1
    · cases t with
      | sym d => exact ih (wfToks_tail_sym hwf).2 h
      | word w =>
        rcases (wfToks_word_cases hwf).2 with h2 | ⟨d, ts'', hts, _, hwfs⟩
        · subst h2; simp at h
        · subst hts
          exact ih hwfs h

/-- Characters of the substituted body are word characters or characters of
the original body. -/
theorem mem_untok_map {σ : Tok → Tok}
    (hσs : ∀ d, σ (.sym d) = .sym d)
    (hσw : ∀ u, isWordStr u = true → ∃ u', σ (.word u) = .word u' ∧ isWordStr u' = true) :
    ∀ {ts : List Tok}, WfToks ts = true →
      ∀ {c : Char}, c ∈ untok (ts.map σ) → isWordChar c = true ∨ c ∈ untok ts := by
  intro ts
  induction ts with
  | nil => intro _ c h; simp [untok] at h
  | cons t ts' ih =>
    intro hwf c hc
    cases t with
    | sym d =>
      obtain ⟨hd, hwf'⟩ := wfToks_tail_sym hwf
      rw [List.map_cons, hσs d, untok] at hc
      rcases List.mem_cons.mp hc with h | h
      · subst h; right; simp [untok]
      · rcases ih hwf' h with h2 | h2
        · exact Or.inl h2
        · right; simp [untok, h2]
    | word u =>
      have hu := (wfToks_word_cases hwf).1
      have hwf' : WfToks ts' = true := by
        rcases (wfToks_word_cases hwf).2 with h2 | ⟨d, ts'', hts, hd, hwfs⟩
        · subst h2; rfl
        · subst hts; exact hwfs
      obtain ⟨u', hσu, hu'⟩ := hσw u hu
      rw [List.map_cons, hσu, untok] at hc
      rcases List.mem_append.mp hc with h | h
      · exact Or.inl (isWordStr_mem hu' h)
      · rcases ih hwf' h with h2 | h2
        · exact Or.inl h2
        · right; simp [untok, h2]

theorem isWordChar_not_ws {c : Char} (h : isWordChar c = true) : isWs c = false := by
  cases hc : isWs c
  · rfl
  · exfalso
    simp only [isWs, Char.isWhitespace, Bool.or_eq_true, beq_iff_eq, decide_eq_true_eq] at hc
    rcases hc with ((h1 | h1) | h1) | h1 <;> (subst h1; revert h; decide)

theorem trim_wordStr {v : Str} (hv : isWordStr v = true) : trim v = v := by
  refine trim_eq_self_of_edges ?_ ?_
  · intro c hc
    exact isWordChar_not_ws (isWordStr_mem hv (by
      cases v with
      | nil => simp at hc
      | cons a t =>
        injection hc with h
        simp [h]))
  · intro c hc
    refine isWordChar_not_ws (isWordStr_mem hv ?_)
    cases v with
    | nil => simp at hc
    | cons a t =>
      rw [List.getLast?_eq_getLast _ (by simp)] at hc
      injection hc with h
      rw [← h]
      exact List.getLast_mem _

theorem tokVal_mem_or (prs : List (Str × Str)) (u : Str) :
    tokVal prs u = u ∨ ∃ p ∈ prs, tokVal prs u = p.2 := by
  induction prs generalizing u with
  | nil => exact Or.inl rfl
  | cons p prs' ih =>
    simp only [tokVal, List.foldl_cons]
    by_cases h : u = p.1
    · rw [if_pos h]
      rcases ih p.2 with h2 | ⟨q, hq, hq2⟩
      · exact Or.inr ⟨p, by simp, h2⟩
      · exact Or.inr ⟨q, by simp [hq], hq2⟩
    · rw [if_neg h]
      rcases ih u with h2 | ⟨q, hq, hq2⟩
      · exact Or.inl h2
      · exact Or.inr ⟨q, by simp [hq], hq2⟩

theorem wfToks_foldl_maps (prs : List (Str × Str)) :
    ∀ ts, WfToks ts = true → (∀ p ∈ prs, isWordStr p.2 = true) →
      WfToks (prs.foldl (fun l p => l.map (substTok p.1 p.2)) ts) = true := by
  induction prs with
  | nil => intro ts hwf _; exact hwf
  | cons p prs' ih =>
    intro ts hwf hall
    simp only [List.foldl_cons]
    exact ih _ (wfToks_map_subst (hall p (by simp)) ts hwf) (fun q hq => hall q (by simp [hq]))

theorem untok_single_ne_nil {t : Tok} (h : match t with
    | .word u => isWordStr u = true
    | .sym _ => True) : untok [t] ≠ [] := by
  cases t with
  | word u =>
    simp only [untok, List.append_nil]
    exact isWordStr_ne_nil h
  | sym c => simp [untok]

/-- Edge characters of the substituted body: the head. -/
theorem untok_map_head {σ : Tok → Tok}
    (hσs : ∀ d, σ (.sym d) = .sym d)
    (hσw : ∀ u, isWordStr u = true → ∃ u', σ (.word u) = .word u' ∧ isWordStr u' = true)
    {ts : List Tok} (hwf : WfToks ts = true)
    (hh : ∀ c, (untok ts).head? = some c → isWs c = false) :
    ∀ c, (untok (ts.map σ)).head? = some c → isWs c = false := by
  cases ts with
  | nil => intro c hc; simp [untok] at hc
  | cons t ts' =>
    cases t with
    | sym d =>
      intro c hc
      rw [List.map_cons, hσs d, untok, List.head?_cons] at hc
      injection hc with h
      subst h
      exact hh d (by simp [untok])
    | word u =>
      intro c hc
      obtain ⟨u', hσu, hu'⟩ := hσw u (wfToks_word_cases hwf).1
      rw [List.map_cons, hσu, untok] at hc
      obtain ⟨a, t2, hu2, ha⟩ := isWordStr_head hu'
      rw [hu2, List.cons_append, List.head?_cons] at hc
      injection hc with h
      subst h
      exact isWordChar_not_ws ha

/-- Edge characters of the substituted body: the last character. -/
theorem untok_map_last {σ : Tok → Tok}
    (hσs : ∀ d, σ (.sym d) = .sym d)
    (hσw : ∀ u, isWordStr u = true → ∃ u', σ (.word u) = .word u' ∧ isWordStr u' = true)
    {ts : List Tok} (hwf : WfToks ts = true)
    (hl : ∀ c, (untok ts).getLast? = some c → isWs c = false) :
    ∀ c, (untok (ts.map σ)).getLast? = some c → isWs c = false := by
  rcases List.eq_nil_or_concat ts with h | ⟨ts', t, hts⟩
  · subst h
    intro c hc
    simp [untok] at hc
  · subst hts
    rw [List.concat_eq_append] at hwf hl ⊢
    have hmap : (ts' ++ [t]).map σ = ts'.map σ ++ [σ t] := by simp
    cases t with
    | sym d =>
      intro c hc
      rw [hmap, hσs d, untok_append, List.getLast?_append_of_ne_nil _ (by simp [untok])] at hc
      simp only [untok, List.getLast?_singleton] at hc
      injection hc with h
      subst h
      refine hl d ?_
      rw [untok_append, List.getLast?_append_of_ne_nil _ (by simp [untok])]
      simp [untok]
    | word u =>
      have hu : isWordStr u = true := wfToks_word_mem hwf (by simp)
      obtain ⟨u', hσu, hu'⟩ := hσw u hu
      intro c hc
      rw [hmap, hσu, untok_append,
        List.getLast?_append_of_ne_nil _ (untok_single_ne_nil (by simpa using hu'))] at hc
      simp only [untok, List.append_nil] at hc
      rw [List.getLast?_eq_getLast _ (isWordStr_ne_nil hu')] at hc
      injection hc with h
      exact isWordChar_not_ws (isWordStr_mem hu' (h ▸ List.getLast_mem _))

theorem normalize_quant_eq {f g1 g2 : Str} (hf : findQuantCapture f = some (g1, g2)) :
    normalize_formula_alpha f
      = (xAux none [] 0 (((splitChar ',' g1).map trim).enum.foldl
          (fun b iv => wbReplace iv.2 (vStr iv.1) b) (trim g2))).filter (fun c => !(isWs c)) := by
  unfold normalize_formula_alpha
  rw [hf]

/-- Claim C6 (amended): `normalize_formula_alpha` is invariant under a
consistent renaming of the leading-quantifier variables, provided the old
and new variable names are pairwise-distinct word strings, none has the
canonical shape `V<digits>`, and the new names are fresh for the body. -/
theorem normalize_alpha_rename_invariant
    (vs ws : List Str) (body : Str)
    (hlen : vs.length = ws.length)
    (hvne : vs ≠ [])
    (hvw : ∀ v ∈ vs, isWordStr v = true)
    (hww : ∀ w ∈ ws, isWordStr w = true)
    (hndv : vs.Nodup) (hndw : ws.Nodup)
    (hdisj : ∀ w ∈ ws, w ∉ vs)
    (hVv : ∀ v ∈ vs, isVForm v = false)
    (hVw : ∀ w ∈ ws, isVForm w = false)
    (hfresh : ∀ w ∈ ws, Tok.word w ∉ tokenize body)
    (hnl : '\n' ∉ body)
    (hh : ∀ c, body.head? = some c → isWs c = false)
    (hl : ∀ c, body.getLast? = some c → isWs c = false) :
    normalize_formula_alpha (mkQuantFormula vs body)
      = normalize_formula_alpha (mkQuantFormula ws (renameBound vs ws body)) := by
  have hwne : ws ≠ [] := by
    intro hcon
    rw [hcon] at hlen
    exact hvne (by simpa using hlen)
  have huntok : untok (tokenize body) = body := untok_tokenize body
  have hwf : WfToks (tokenize body) = true := wfToks_tokenize body
  have hprsR : ∀ p ∈ vs.zip ws, isWordStr p.1 = true ∧ isWordStr p.2 = true :=
    fun p hp => ⟨hvw p.1 (List.of_mem_zip hp).1, hww p.2 (List.of_mem_zip hp).2⟩
  -- the renamed body, at the token level
  have hbody' : renameBound vs ws body
      = untok ((tokenize body).map
          (fun t => (vs.zip ws).foldl (fun t p => substTok p.1 p.2 t) t)) := by
    conv_lhs => rw [renameBound, ← huntok]
    rw [foldl_wbReplace_untok _ _ hwf hprsR, foldl_map_eq_map_fold]
  have hσRs : ∀ d, (fun t => (vs.zip ws).foldl (fun t p => substTok p.1 p.2 t) t) (.sym d)
      = Tok.sym d := fun d => foldl_substTok_sym (vs.zip ws) d
  have hσRw : ∀ u, isWordStr u = true →
      ∃ u', (fun t => (vs.zip ws).foldl (fun t p => substTok p.1 p.2 t) t) (.word u)
          = Tok.word u' ∧ isWordStr u' = true := by
    intro u hu
    refine ⟨tokVal (vs.zip ws) u, foldl_substTok_word _ u, ?_⟩
    rcases tokVal_mem_or (vs.zip ws) u with h | ⟨p, hp, hpv⟩
    · rw [h]; exact hu
    · rw [hpv]; exact (hprsR p hp).2
  have hnl' : '\n' ∉ renameBound vs ws body := by
    intro hmem
    rw [hbody'] at hmem
    rcases mem_untok_map hσRs hσRw hwf hmem with h | h
    · exact absurd h (by decide)
    · rw [huntok] at h
      exact hnl h
  have hh' : ∀ c, (renameBound vs ws body).head? = some c → isWs c = false := by
    intro c hc
    rw [hbody'] at hc
    exact untok_map_head hσRs hσRw hwf (by rw [huntok]; exact hh) c hc
  have hl' : ∀ c, (renameBound vs ws body).getLast? = some c → isWs c = false := by
    intro c hc
    rw [hbody'] at hc
    exact untok_map_last hσRs hσRw hwf (by rw [huntok]; exact hl) c hc
  have hbrV : ']' ∉ List.intercalate [','] vs := by
    intro hmem
    rcases mem_intercalate_comma hmem with h | ⟨v, hv, hcv⟩
    · exact absurd h (by decide)
    · have := isWordStr_mem (hvw v hv) hcv
      exact absurd this (by decide)
  have hbrW : ']' ∉ List.intercalate [','] ws := by
    intro hmem
    rcases mem_intercalate_comma hmem with h | ⟨v, hv, hcv⟩
    · exact absurd h (by decide)
    · have := isWordStr_mem (hww v hv) hcv
      exact absurd this (by decide)
  have hcommaV : ∀ v ∈ vs, ',' ∉ v := by
    intro v hv hmem
    have := isWordStr_mem (hvw v hv) hmem
    exact absurd this (by decide)
  have hcommaW : ∀ w ∈ ws, ',' ∉ w := by
    intro w hw hmem
    have := isWordStr_mem (hww w hw) hmem
    exact absurd this (by decide)
  have hmapTrimV : (splitChar ',' (List.intercalate [','] vs)).map trim = vs := by
    rw [splitChar_intercalate hvne hcommaV]
    rw [List.map_congr_left (fun v hv => trim_wordStr (hvw v hv))]
    exact List.map_id vs
  have hmapTrimW : (splitChar ',' (List.intercalate [','] ws)).map trim = ws := by
    rw [splitChar_intercalate hwne hcommaW]
    rw [List.map_congr_left (fun w hw => trim_wordStr (hww w hw))]
    exact List.map_id ws
  -- unfold both normalizations to the post-substitution bodies
  rw [normalize_quant_eq (findQuant_mkQuant hbrV hnl hh),
    normalize_quant_eq (findQuant_mkQuant hbrW hnl' hh')]
  rw [hmapTrimV, hmapTrimW, trim_eq_self_of_edges hh hl, trim_eq_self_of_edges hh' hl']
  -- it suffices that the two substituted bodies agree
  congr 2
  -- rewrite the enum folds as generic pair folds
  rw [show vs.enum.foldl (fun b iv => wbReplace iv.2 (vStr iv.1) b) body
      = (vs.enum.map (fun p => (p.2, vStr p.1))).foldl (fun b p => wbReplace p.1 p.2 b) body
    from by rw [List.foldl_map]]
  rw [show ws.enum.foldl (fun b iv => wbReplace iv.2 (vStr iv.1) b) (renameBound vs ws body)
      = (ws.enum.map (fun p => (p.2, vStr p.1))).foldl (fun b p => wbReplace p.1 p.2 b)
          (renameBound vs ws body)
    from by rw [List.foldl_map]]
  have hpairsV : ∀ p ∈ vs.enum.map (fun p => (p.2, vStr p.1)),
      isWordStr p.1 = true ∧ isWordStr p.2 = true := by
    intro p hp
    simp only [List.mem_map] at hp
    obtain ⟨q, hq, hpq⟩ := hp
    rw [show vs.enum = vs.enumFrom 0 from rfl] at hq
    have h2 : q.2 ∈ vs := snd_mem_of_mem_enumFrom hq
    rw [← hpq]
    exact ⟨hvw q.2 h2, isWordStr_vStr q.1⟩
  have hpairsW : ∀ p ∈ ws.enum.map (fun p => (p.2, vStr p.1)),
      isWordStr p.1 = true ∧ isWordStr p.2 = true := by
    intro p hp
    simp only [List.mem_map] at hp
    obtain ⟨q, hq, hpq⟩ := hp
    rw [show ws.enum = ws.enumFrom 0 from rfl] at hq
    have h2 : q.2 ∈ ws := snd_mem_of_mem_enumFrom hq
    rw [← hpq]
    exact ⟨hww q.2 h2, isWordStr_vStr q.1⟩
  have hwfR : WfToks ((tokenize body).map
      (fun t => (vs.zip ws).foldl (fun t p => substTok p.1 p.2 t) t)) = true := by
    rw [← foldl_map_eq_map_fold]
    exact wfToks_foldl_maps (vs.zip ws) (tokenize body) hwf (fun p hp => (hprsR p hp).2)
  -- right side to token level (before `body` gets rewritten away on the left)
  rw [hbody', foldl_wbReplace_untok _ _ hwfR hpairsW, foldl_map_eq_map_fold, List.map_map]
  -- left side to token level
  conv_lhs => rw [← huntok]
  rw [foldl_wbReplace_untok _ _ hwf hpairsV, foldl_map_eq_map_fold]
  -- pointwise equality of the composite substitutions on the body's tokens
  congr 1
  refine List.map_congr_left ?_
  intro t ht
  cases t with
  | sym c =>
    simp only [Function.comp]
    rw [foldl_substTok_sym, foldl_substTok_sym, foldl_substTok_sym]
  | word u =>
    simp only [Function.comp]
    rw [foldl_substTok_word, foldl_substTok_word, foldl_substTok_word]
    have hu : u ∈ vs ∨ (u ∉ vs ∧ u ∉ ws) := by
      by_cases h1 : u ∈ vs
      · exact Or.inl h1
      · refine Or.inr ⟨h1, ?_⟩
        intro h2
        exact hfresh u h2 ht
    rw [tok_composite hlen hndv hndw hdisj hVv hVw u hu]

/-- Claim C6, counterexample to the claim as stated: the renaming
`{X ↦ A, Y ↦ V0}` of the bound variables of `![X,Y]:op(X,Y)` is consistent
(injective, and both new names are fresh for the formula), yet the two
canonical strings differ (`op(V0,V1)` vs `op(V1,V1)`): the normalizer's own
canonical names `V<digits>` can be captured. -/
theorem c6_counterexample :
    normalize_formula_alpha (mkQuantFormula ["X".data, "Y".data] "op(X,Y)".data)
      ≠ normalize_formula_alpha (mkQuantFormula ["A".data, "V0".data]
          (renameBound ["X".data, "Y".data] ["A".data, "V0".data] "op(X,Y)".data)) := by
  decide

/-- Witness for the amended claim C6, at the renaming `{X ↦ B, Y ↦ C}` of
`![X,Y]:op(X,Y)`. -/
theorem c6_amended_witness :
    normalize_formula_alpha (mkQuantFormula ["X".data, "Y".data] "op(X,Y)".data)
      = normalize_formula_alpha (mkQuantFormula ["B".data, "C".data]
          (renameBound ["X".data, "Y".data] ["B".data, "C".data] "op(X,Y)".data)) :=
  normalize_alpha_rename_invariant ["X".data, "Y".data] ["B".data, "C".data] "op(X,Y)".data
    (by decide) (by decide) (by decide) (by decide) (by decide) (by decide) (by decide)
    (by decide) (by decide) (by decide) (by decide) (by decide) (by decide)

/-- Claim C3: the matcher is claimed never to panic, with malformed input
(such as an unbalanced single `'('`) yielding `false`.  The code violates
this: `parse_term("(")` takes the byte slice `&s[1..s.len()-1]` = `s[1..0]`,
which panics, and `formulas_match("(", "x")` reaches it (modelled here by
`none`). -/
theorem c3_lone_paren_panics :
    formulas_match "(".data "x".data = none ∧ parse_term "(".data = none := by
  decide

end AlphaMatch

/-! ## Shared association-map helpers

`BTreeMap` is modelled as an association list; `insert` overwrites the
binding in place, `get` takes the first binding.  Iteration order of a
`BTreeMap` (ascending keys) is modelled where a theorem depends on it. -/

namespace MapsUtil

def lookupNat {α : Type} : List (Nat × α) → Nat → Option α
  | [], _ => none
  | p :: rest, k => if p.1 = k then some p.2 else lookupNat rest k

def lookupStrKey {α : Type} : List (Str × α) → Str → Option α
  | [], _ => none
  | p :: rest, k => if p.1 = k then some p.2 else lookupStrKey rest k

/-- `BTreeMap::insert` on an association list: overwrite in place. -/
def insertNat : List (Nat × Nat) → Nat → Nat → List (Nat × Nat)
  | [], k, v => [(k, v)]
  | p :: rest, k, v => if p.1 = k then (k, v) :: rest else p :: insertNat rest k v

theorem foldl_inv {α β : Type} (P : β → Prop) (f : β → α → β) :
    ∀ (l : List α) (b : β), P b → (∀ b a, a ∈ l → P b → P (f b a)) →
      P (l.foldl f b) := by
  intro l
  induction l with
  | nil => intro b hb _; exact hb
  | cons a t ih =>
    intro b hb hstep
    exact ih (f b a) (hstep b a (List.mem_cons_self a t) hb)
      (fun b' a' ha' => hstep b' a' (List.mem_cons_of_mem a ha'))

end MapsUtil

/-! ## `minimize.rs`: proof stitching (C1) and the global best (C4) -/

namespace Minimize

/-- `proof_uses_lemma` (minimize.rs:977-996).  The closure passed to
`lines().any` ends in a bare `true` after the pattern checks (the function
carries the comment "TODO this needs fixing!"), so it reports a use for
every line. -/
def proof_uses_lemma (proof lemma_name : Str) : Bool :=
  (RustStr.lines proof).any (fun line =>
    let l := RustStr.trim line
    if RustStr.containsSub l lemma_name
        || RustStr.containsSub l ('(' :: lemma_name ++ [','])
        || RustStr.containsSub l (' ' :: lemma_name ++ [' ']) then true
    else if RustStr.containsSub l ("[input]".data) then true
    else true)

/-- Steps 10-11 of `try_minimize` (minimize.rs:703-756): the total step
count of the stitched annotated proof, for the four cases of
`(root_used, history_used)`.  The corresponding proof segments are
concatenated into the annotated proof in exactly the same cases. -/
def stitch_total (root_used history_used : Bool)
    (start_steps hist_steps root_steps sub_steps : Nat) : Nat :=
  if !root_used && !history_used then start_steps + sub_steps
  else if !root_used && history_used then start_steps + hist_steps + sub_steps
  else if root_used && !history_used then start_steps + root_steps + sub_steps
  else start_steps + hist_steps + root_steps + sub_steps

/-- `GlobalBest` is the tuple held in `global_best` (minimize.rs:40-48). -/
structure GlobalBest where
  lemma_count : Nat
  steps_total : Nat
  root_lemma : Str
  best_history : Str
  annotated_proof : Str
  dag_text : Str
  lemmas_text : Str
deriving DecidableEq

/-- The `global_best` update of `try_minimize` (minimize.rs:786-813): the
candidate replaces the incumbent when
`steps_total < b_steps || (lemma_count == b_lemmas && steps_total < b_steps)`. -/
def update_global_best (global : Option GlobalBest) (cand : GlobalBest) :
    Option GlobalBest :=
  match global with
  | none => some cand
  | some g =>
    if cand.steps_total < g.steps_total
        ∨ (cand.lemma_count = g.lemma_count ∧ cand.steps_total < g.steps_total) then
      some cand
    else
      global

/-- Claim C1 (code bug): the text-inspection check `proof_uses_lemma` never
reports a lemma as unused — on any proof with at least one line it returns
`true` for every `lemma_name`, even one that occurs nowhere in the text, so
the root segment's steps are counted in `total_steps` for conjecture proofs
that never reference the root lemma.  First conjunct: the check degenerates
to "the proof is non-empty".  Remaining conjuncts: the one-line proof
`"a = b."` does not contain `single_lemma_0001`, yet the check reports it
used and the stitched total (start 2, root 3, sub 4) includes the root
segment's 3 steps. -/
theorem proof_uses_lemma_ignores_references :
    (∀ proof lemma_name : Str,
        proof_uses_lemma proof lemma_name = !(RustStr.lines proof).isEmpty)
    ∧ proof_uses_lemma "a = b.".data "single_lemma_0001".data = true
    ∧ RustStr.containsSub "a = b.".data "single_lemma_0001".data = false
    ∧ stitch_total ( proof_uses_lemma "a = b.".data "single_lemma_0001".data)
        false 2 7 3 4 = 2 + 3 + 4 := by
  refine ⟨?_, by decide, by decide, by decide⟩
  intro proof lemma_name
  unfold proof_uses_lemma
  cases RustStr.lines proof with
  | nil => rfl
  | cons a l => simp [ite_self]

/-- Claim C4 (code bug): in the `global_best` update the disjunct
`lemma_count == b_lemmas && steps_total < b_steps` implies the first
disjunct, so the condition collapses to `steps_total < b_steps` and the
`dag_lemma_count` tie-break of the specification is dead code.  First
conjunct: the update equals a plain `steps_total` comparison.  Second
conjunct: a challenger with equal `steps_total` (10) and strictly fewer DAG
lemmas (3 < 5) does not replace the incumbent. -/
theorem global_best_tie_break_dead :
    (∀ g cand : GlobalBest,
        update_global_best (some g) cand
          = if cand.steps_total < g.steps_total then some cand else some g)
    ∧ update_global_best (some ⟨5, 10, [], [], [], [], []⟩)
          ⟨3, 10, [], [], [], [], []⟩
        = some ⟨5, 10, [], [], [], [], []⟩ := by
  constructor
  · intro g cand
    by_cases h : cand.steps_total < g.steps_total
    · simp [update_global_best, h]
    · simp [update_global_best, h]
  · decide

end Minimize

/-! ## `dag.rs`: `build_dag` (C2)

The DAG is a `BTreeMap<String, BTreeSet<String>>`; it is modelled as an
association list of `(parent, children)` with duplicate-free children
lists.  Only membership in the children sets is stated, so the element
order of the modelled sets is immaterial. -/

namespace Dag

/-- `LemmaInfo` (utils.rs:16-20): formula plus `(name, formula)` dependencies. -/
structure LemmaInfo where
  formula : Str
  dependencies : List (Str × Str)

/-- `TweeDependency` (utils.rs:22-26). -/
structure TweeDependency where
  name : Str
  formula : Str
  parents : List Str

/-- `PrecomputedLemmas` (utils.rs:9-14). -/
structure PrecomputedLemmas where
  all_lemmas : List (Str × LemmaInfo)
  all_twee : List TweeDependency
  lemmas : List (Str × Str)

/-- `dag.entry(k).or_default().insert(v)`. -/
def dagInsert (dag : List (Str × List Str)) (k v : Str) : List (Str × List Str) :=
  match dag with
  | [] => [(k, [v])]
  | p :: rest =>
    if p.1 = k then (k, if v ∈ p.2 then p.2 else p.2 ++ [v]) :: rest
    else p :: dagInsert rest k v

/-- `dag.entry(k).or_default().extend(vs)`. -/
def dagExtend (dag : List (Str × List Str)) (k : Str) (vs : List Str) :
    List (Str × List Str) :=
  vs.foldl (fun d v => dagInsert d k v) dag

/-- The children set of `k` in the built DAG. -/
def dagChildren (dag : List (Str × List Str)) (k : Str) : List Str :=
  (MapsUtil.lookupStrKey dag k).getD []

/-- The `min_by_key` key (dag.rs:98-104 and 146-152): the ASCII digits of a
parent name parsed as `u32`, `u32::MAX` on failure (no digits or overflow). -/
def digitKey (p : Str) : Nat :=
  let ds := p.filter Char.isDigit
  if ds.isEmpty then 4294967295
  else if RustStr.digitsToNat ds ≥ 4294967296 then 4294967295
  else RustStr.digitsToNat ds

/-- `Iterator::min_by_key` over `parents`: the first element of minimal key,
`none` for an empty iterator (the source calls `.expect(..)` on it). -/
def minByKey : List Str → Option Str
  | [] => none
  | x :: xs => some (xs.foldl (fun best p => if digitKey p < digitKey best then p else best) x)

/-- The duplicate scan against `all_twee` (dag.rs:85-92 and 134-141): the
first TWEE dependency whose formula matches in both directions.  A panic
inside `formulas_match` (modelled by its `none` result) aborts `build_dag`,
hence the outer `Option`. -/
def findTweeDup : List TweeDependency → Str → Option (Option TweeDependency)
  | [], _ => some none
  | td :: rest, f =>
    match AlphaMatch.formulas_match f td.formula,
        AlphaMatch.formulas_match td.formula f with
    | some b1, some b2 =>
      if b1 && b2 then some (some td) else findTweeDup rest f
    | _, _ => none

/-- One dependency of the current lemma (the `for (dep_name, dep_formula)`
loop body, dag.rs:126-190), acting on the pair (dag, queue).  `none` models
an abort (a panic inside `formulas_match`, or `.expect` on a duplicate TWEE
dependency with no parents). -/
def stepDep (pre : PrecomputedLemmas) (lemma_ : Str) (seen : List Str)
    (redirected : Bool) (acc : List (Str × List Str) × List Str)
    (dep : Str × Str) : Option (List (Str × List Str) × List Str) :=
  let dag := acc.1
  let queue := acc.2
  if RustStr.strStarts dep.1 "twee_".data then some (dag, queue)
  else
    match findTweeDup pre.all_twee dep.2 with
    | none => none
    | some (some td) =>
      match minByKey td.parents with
      | none => none
      | some sp =>
        let dag :=
          match MapsUtil.lookupStrKey pre.all_lemmas sp with
          | some pinfo => dagExtend dag sp (pinfo.dependencies.map Prod.fst)
          | none => dag
        let queue := if sp ∈ seen then queue else queue ++ [sp]
        some (dag, queue)
    | some none =>
      if redirected then some (dag, queue)
      else
        let dag := dagInsert dag lemma_ dep.1
        let dag :=
          match MapsUtil.lookupStrKey pre.all_lemmas dep.1 with
          | some dinfo => dagExtend dag dep.1 (dinfo.dependencies.map Prod.fst)
          | none => dag
        let queue := if dep.1 ∈ seen then queue else queue ++ [dep.1]
        some (dag, queue)

/-- Fold of `stepDep` over the dependency list, short-circuiting on abort. -/
def stepDeps (pre : PrecomputedLemmas) (lemma_ : Str) (seen : List Str)
    (redirected : Bool) :
    List (Str × Str) → (List (Str × List Str) × List Str) →
      Option (List (Str × List Str) × List Str)
  | [], acc => some acc
  | dep :: rest, acc =>
    match stepDep pre lemma_ seen redirected acc dep with
    | none => none
    | some acc' => stepDeps pre lemma_ seen redirected rest acc'

/-- The `while let Some(lemma) = queue.pop_front()` loop of `build_dag`
(dag.rs:66-192), fuelled: the Rust loop always terminates (every push is
tied to a lemma processed for the first time), and the wrapper supplies
fuel exceeding the possible number of iterations; `none` is an abort
(an `Err`/panic path of the source, or fuel exhaustion, which the wrapper's
fuel bound prevents). -/
def buildDagF (pre : PrecomputedLemmas) :
    Nat → List (Str × List Str) → List Str → List Str →
      Option (List (Str × List Str))
  | 0, _, _, _ => none
  | _ + 1, dag, _, [] => some dag
  | fuel + 1, dag, seen, lemma_ :: rest =>
    if RustStr.strStarts lemma_ "a".data then buildDagF pre fuel dag seen rest
    else if RustStr.strStarts lemma_ "conjecture_".data then
      buildDagF pre fuel dag seen rest
    else if lemma_ ∈ seen then buildDagF pre fuel dag seen rest
    else
      let seen' := seen ++ [lemma_]
      match MapsUtil.lookupStrKey pre.all_lemmas lemma_ with
      | none => none
      | some info =>
        match findTweeDup pre.all_twee info.formula with
        | none => none
        | some (some td) =>
          match minByKey td.parents with
          | none => none
          | some sp =>
            let dag' :=
              match MapsUtil.lookupStrKey pre.all_lemmas sp with
              | some pinfo => dagExtend dag sp (pinfo.dependencies.map Prod.fst)
              | none => dag
            let queue' := rest ++ [sp]
            match stepDeps pre lemma_ seen' true info.dependencies (dag', queue') with
            | none => none
            | some (dag'', queue'') => buildDagF pre fuel dag'' seen' queue''
        | some none =>
          match stepDeps pre lemma_ seen' false info.dependencies (dag, rest) with
          | none => none
          | some (dag'', queue'') => buildDagF pre fuel dag'' seen' queue''

/-- Fuel exceeding the total number of loop iterations: one per initial
root plus one per possible push (at most `1 + |deps|` per lemma, counted
once per lemma of `all_lemmas`, see the doc of `buildDagF`). -/
def dagFuel (pre : PrecomputedLemmas) : Nat :=
  2 + pre.all_lemmas.foldl (fun a p => a + 2 + p.2.dependencies.length) 0

/-- `build_dag(root_lemma, precomputed)` (dag.rs:48-194), returning only the
DAG (`lemmas` is returned unchanged by the source). -/
def build_dag (root_lemma : Str) (pre : PrecomputedLemmas) :
    Option (List (Str × List Str)) :=
  buildDagF pre (dagFuel pre) [] [] [root_lemma]

/-- Claim C2 (code bug): `build_dag` does not always return an acyclic
graph.  With no TWEE duplicates (`all_twee = []`) the "normal DAG entry"
branch copies the raw dependency edges, so two lemmas `l1`, `l2` that list
each other as dependencies produce the cyclic map
`{l1 -> {l2}, l2 -> {l1}}`: `l1` is reachable from itself. -/
theorem build_dag_cycle_on_mutual_deps :
    ∃ d, build_dag "l1".data
          ⟨[("l1".data, ⟨"f1".data, [("l2".data, "f2".data)]⟩),
            ("l2".data, ⟨"f2".data, [("l1".data, "f1".data)]⟩)], [], []⟩
        = some d
      ∧ Relation.TransGen (fun a b : Str => b ∈ dagChildren d a)
          "l1".data "l1".data := by
  refine ⟨[("l1".data, ["l2".data]), ("l2".data, ["l1".data])], by decide, ?_⟩
  have h1 : Relation.TransGen
      (fun a b : Str =>
        b ∈ dagChildren [("l1".data, ["l2".data]), ("l2".data, ["l1".data])] a)
      "l1".data "l2".data := Relation.TransGen.single (by decide)
  exact h1.tail (by decide)

end Dag

/-! ## `proof_turnaround.rs`: `needs_proof_turnaround` (C5)

`steps_map : BTreeMap<usize, SuperpositionStep>` is modelled as an
association list; a `BTreeMap` iterates in ascending key order, which for
`needs_proof_turnaround` only influences the order in which the
negated-conjecture roots seed the forward DFS — the resulting chain set,
and hence the sorted chain vector, are the same for any order. -/

namespace ProofTurnaround

/-- `SuperpositionStep` (proof_turnaround.rs:4-10). -/
structure TStep where
  formula : Str
  deps : List (Nat × Nat)
  is_negated_conjecture : Bool
  rule : Str

/-- `is_proof_step` (proof_turnaround.rs:12-23). -/
def is_proof_step (rule : Str) : Bool :=
  decide (rule = "demodulation".data) || decide (rule = "superposition".data)
    || decide (rule = "resolution".data) || decide (rule = "inequality".data)
    || decide (rule = "backward".data) || decide (rule = "forward".data)
    || decide (rule = "subsumption".data)

/-- `build_forward_deps` (proof_turnaround.rs:102-119) read as a function:
the forward list of `d` collects, in map order, the index of every step
that lists `d` among the second components of its `deps`. -/
def build_forward_deps (steps : List (Nat × TStep)) (d : Nat) : List Nat :=
  steps.flatMap (fun p => (p.2.deps.filter (fun q => q.2 == d)).map (fun _ => p.1))

/-- `gather_forward_chain` (proof_turnaround.rs:121-135): depth-first
insertion into the visited set, fuelled (the recursion of the source
terminates because the visited set only grows; the fuel supplied by
`chainOf` exceeds the number of distinct reachable indices). -/
def gatherChainF (fwd : Nat → List Nat) : Nat → Nat → List Nat → List Nat
  | 0, _, vis => vis
  | fuel + 1, start, vis =>
    if start ∈ vis then vis
    else (fwd start).foldl (fun v n => gatherChainF fwd fuel n v) (vis ++ [start])

/-- The indices of the negated-conjecture steps, in map order. -/
def negated_roots (steps : List (Nat × TStep)) : List Nat :=
  (steps.filter (fun p => p.2.is_negated_conjecture)).map Prod.fst

/-- Ascending duplicate-free enumeration of a finite index set
(`BTreeSet<usize>` iteration order). -/
def sortedOf (l : List Nat) : List Nat :=
  (List.range (l.foldr max 0 + 1)).filter (fun i => decide (i ∈ l))

/-- The sorted negated-conjecture chain built by
`build_neg_chain_and_prev_step` (proof_turnaround.rs:185-196): forward DFS
from every negated root into one shared set, then sorted. -/
def chainOf (steps : List (Nat × TStep)) : List Nat :=
  sortedOf ((negated_roots steps).foldl
    (fun vis r => gatherChainF (build_forward_deps steps) (steps.length + 2) r vis) [])

/-- `steps_map[&i]`.  The source indexing panics on a missing key; every
element of the chain is a key of the map (roots are keys, and forward
targets are keys), so the default value is never consulted by
`needs_proof_turnaround`. -/
def stepOf (steps : List (Nat × TStep)) (i : Nat) : TStep :=
  (MapsUtil.lookupNat steps i).getD ⟨[], [], false, "unknown".data⟩

/-- The `for (pos, &i) in chain_vec.iter().enumerate()` scan of
`needs_proof_turnaround` (proof_turnaround.rs:163-180): find the first
proof step; nothing after it means `false`, otherwise compare the next
element's formula with `$false`. -/
def scanChain (steps : List (Nat × TStep)) : List Nat → Bool
  | [] => false
  | i :: rest =>
    if is_proof_step (stepOf steps i).rule then
      match rest with
      | [] => false
      | j :: _ => decide ((stepOf steps j).formula ≠ "$false".data)
    else scanChain steps rest

/-- `needs_proof_turnaround` (proof_turnaround.rs:136-182). -/
def needs_proof_turnaround (steps : List (Nat × TStep)) : Bool :=
  if negated_roots steps = [] then false
  else scanChain steps (chainOf steps)

theorem scanChain_false_iff (steps : List (Nat × TStep)) (l : List Nat) :
    scanChain steps l = false ↔
      ((∀ i ∈ l, is_proof_step (stepOf steps i).rule = false)
        ∨ (∃ l₁ i, l = l₁ ++ [i]
            ∧ (∀ k ∈ l₁, is_proof_step (stepOf steps k).rule = false)
            ∧ is_proof_step (stepOf steps i).rule = true)
        ∨ (∃ l₁ i j l₂, l = l₁ ++ i :: j :: l₂
            ∧ (∀ k ∈ l₁, is_proof_step (stepOf steps k).rule = false)
            ∧ is_proof_step (stepOf steps i).rule = true
            ∧ (stepOf steps j).formula = "$false".data)) := by
  induction l with
  | nil =>
    simp only [scanChain]
    constructor
    · intro _
      exact Or.inl (fun i hi => absurd hi (List.not_mem_nil i))
    · intro _; trivial
  | cons i rest ih =>
    by_cases hp : is_proof_step (stepOf steps i).rule = true
    · cases rest with
      | nil =>
        simp only [scanChain, hp, if_true]
        constructor
        · intro _
          exact Or.inr (Or.inl ⟨[], i, rfl, ⟨fun k hk => absurd hk (List.not_mem_nil k), hp⟩⟩)
        · intro _; trivial
      | cons j rest2 =>
        simp only [scanChain, hp, if_true]
        constructor
        · intro hd
          have hj : (stepOf steps j).formula = "$false".data := by
            by_contra hne
            simp [hne] at hd
          exact Or.inr (Or.inr ⟨[], i, j, rest2, rfl,
            ⟨fun k hk => absurd hk (List.not_mem_nil k), hp, hj⟩⟩)
        · rintro (hall | ⟨l₁, i', heq, hfree, hi'⟩ | ⟨l₁, i', j', l₂, heq, hfree, hi', hj'⟩)
          · exact absurd (hall i (List.mem_cons_self i _)) (by simp [hp])
          · cases l₁ with
            | nil =>
              simp only [List.nil_append] at heq
              cases heq
            | cons a t =>
              simp only [List.cons_append, List.cons.injEq] at heq
              obtain ⟨ha, -⟩ := heq
              subst ha
              exact absurd hp (by simp [hfree i (List.mem_cons_self i t)])
          · cases l₁ with
            | nil =>
              simp only [List.nil_append, List.cons.injEq] at heq
              obtain ⟨-, hj2, -⟩ := heq
              subst hj2
              simp [hj']
            | cons a t =>
              simp only [List.cons_append, List.cons.injEq] at heq
              obtain ⟨ha, -⟩ := heq
              subst ha
              exact absurd hp (by simp [hfree i (List.mem_cons_self i t)])
    · have hp' : is_proof_step (stepOf steps i).rule = false := by
        cases h : is_proof_step (stepOf steps i).rule
        · rfl
        · exact absurd h hp
      simp only [scanChain, hp', Bool.false_eq_true, if_false]
      rw [ih]
      constructor
      · rintro (hall | ⟨l₁, i', heq, hfree, hi'⟩ | ⟨l₁, i', j', l₂, heq, hfree, hi', hj'⟩)
        · refine Or.inl ?_
          intro k hk
          rcases List.mem_cons.mp hk with hk | hk
          · subst hk; exact hp'
          · exact hall k hk
        · refine Or.inr (Or.inl ⟨i :: l₁, i', by rw [heq, List.cons_append], ?_, hi'⟩)
          intro k hk
          rcases List.mem_cons.mp hk with hk | hk
          · subst hk; exact hp'
          · exact hfree k hk
        · refine Or.inr (Or.inr ⟨i :: l₁, i', j', l₂, by rw [heq, List.cons_append], ?_, hi', hj'⟩)
          intro k hk
          rcases List.mem_cons.mp hk with hk | hk
          · subst hk; exact hp'
          · exact hfree k hk
      · rintro (hall | ⟨l₁, i', heq, hfree, hi'⟩ | ⟨l₁, i', j', l₂, heq, hfree, hi', hj'⟩)
        · exact Or.inl (fun k hk => hall k (List.mem_cons_of_mem i hk))
        · cases l₁ with
          | nil =>
            simp only [List.nil_append, List.cons.injEq] at heq
            obtain ⟨ha, -⟩ := heq
            subst ha
            exact absurd hi' (by simp [hp'])
          | cons a t =>
            simp only [List.cons_append, List.cons.injEq] at heq
            obtain ⟨-, ht⟩ := heq
            exact Or.inr (Or.inl ⟨t, i', ht, fun k hk => hfree k (List.mem_cons_of_mem a hk), hi'⟩)
        · cases l₁ with
          | nil =>
            simp only [List.nil_append, List.cons.injEq] at heq
            obtain ⟨ha, -⟩ := heq
            subst ha
            exact absurd hi' (by simp [hp'])
          | cons a t =>
            simp only [List.cons_append, List.cons.injEq] at heq
            obtain ⟨-, ht⟩ := heq
            exact Or.inr (Or.inr ⟨t, i', j', l₂, ht,
              fun k hk => hfree k (List.mem_cons_of_mem a hk), hi', hj'⟩)

/-- Claim C5: `needs_proof_turnaround` returns `false` exactly when there
is no negated-conjecture step, or the sorted forward-reachability chain of
the negated-conjecture steps contains no step with a genuine derivation
rule (`is_proof_step`), or the first such step closes the chain, or the
chain element immediately after it has the exact formula `$false`; in
every other case it returns `true`. -/
theorem needs_proof_turnaround_false_iff (steps : List (Nat × TStep)) :
    needs_proof_turnaround steps = false ↔
      (negated_roots steps = []
        ∨ (∀ i ∈ chainOf steps, is_proof_step (stepOf steps i).rule = false)
        ∨ (∃ l₁ i, chainOf steps = l₁ ++ [i]
            ∧ (∀ k ∈ l₁, is_proof_step (stepOf steps k).rule = false)
            ∧ is_proof_step (stepOf steps i).rule = true)
        ∨ (∃ l₁ i j l₂, chainOf steps = l₁ ++ i :: j :: l₂
            ∧ (∀ k ∈ l₁, is_proof_step (stepOf steps k).rule = false)
            ∧ is_proof_step (stepOf steps i).rule = true
            ∧ (stepOf steps j).formula = "$false".data)) := by
  by_cases hroots : negated_roots steps = []
  · constructor
    · intro _
      exact Or.inl hroots
    · intro _
      simp [needs_proof_turnaround, hroots]
  · have hne : needs_proof_turnaround steps = scanChain steps (chainOf steps) := by
      simp [needs_proof_turnaround, hroots]
    rw [hne, scanChain_false_iff]
    constructor
    · rintro (h | h | h)
      · exact Or.inr (Or.inl h)
      · exact Or.inr (Or.inr (Or.inl h))
      · exact Or.inr (Or.inr (Or.inr h))
    · rintro (h | h | h | h)
      · exact absurd h hroots
      · exact Or.inl h
      · exact Or.inr (Or.inl h)
      · exact Or.inr (Or.inr h)

end ProofTurnaround

/-! ## `superpose.rs`: dependency closure (C7), proof-step parser (C8),
and the superposition-lemma naming rejected by `load_lemma` (C10) -/

namespace Superpose

/-- `SuperpositionStep` (superpose.rs:9-14): the `deps` pairs are
`(original Vampire number, sequential index)`. -/
structure SStep where
  formula : Str
  deps : List (Nat × Nat)
deriving DecidableEq

/-- `gather_all_dependencies` (superpose.rs:328-345), fuelled: check the
visited set, insert, then recurse into every dependency with positive
sequential index.  The recursion of the source terminates because the
visited set only grows; the wrapper supplies fuel exceeding the number of
distinct insertable indices. -/
def gatherF (steps : List (Nat × SStep)) : Nat → Nat → List Nat → List Nat
  | 0, _, col => col
  | fuel + 1, x, col =>
    if x ∈ col then col
    else
      match MapsUtil.lookupNat steps x with
      | none => col ++ [x]
      | some st =>
        st.deps.foldl
          (fun c q => if 0 < q.2 then gatherF steps fuel q.2 c else c) (col ++ [x])

/-- The `deps` consulted for an index (empty when the index is not a key). -/
def depsOf (steps : List (Nat × SStep)) (x : Nat) : List (Nat × Nat) :=
  match MapsUtil.lookupNat steps x with
  | none => []
  | some st => st.deps

/-- Every index `gatherF` can ever visit from `x`. -/
def gatherUniverse (steps : List (Nat × SStep)) (x : Nat) : List Nat :=
  (x :: steps.flatMap (fun p => p.2.deps.map (fun q => q.2))).dedup

/-- `gather_all_dependencies(x, steps, &mut BTreeSet::new())` as the set it
collects, with sufficient fuel. -/
def gather_all_dependencies (steps : List (Nat × SStep)) (x : Nat) : List Nat :=
  gatherF steps ((gatherUniverse steps x).length + 1) x []

theorem lookupNat_mem {α : Type} : ∀ {l : List (Nat × α)} {k : Nat} {v : α},
    MapsUtil.lookupNat l k = some v → (k, v) ∈ l := by
  intro l
  induction l with
  | nil => intro k v h; cases h
  | cons p rest ih =>
    intro k v h
    simp only [MapsUtil.lookupNat] at h
    by_cases hk : p.1 = k
    · rw [if_pos hk] at h
      cases h
      exact hk ▸ List.mem_cons_self p rest
    · rw [if_neg hk] at h
      exact List.mem_cons_of_mem p (ih h)

theorem gatherF_mono (steps : List (Nat × SStep)) :
    ∀ fuel x col, col ⊆ gatherF steps fuel x col := by
  intro fuel
  induction fuel with
  | zero => intro x col; exact List.Subset.refl col
  | succ fuel ih =>
    intro x col
    by_cases hx : x ∈ col
    · simp [gatherF, hx]
    · simp only [gatherF, hx, if_false]
      cases hlk : MapsUtil.lookupNat steps x with
      | none => exact List.subset_append_left col [x]
      | some st =>
        refine MapsUtil.foldl_inv (fun c => col ⊆ c) _ st.deps (col ++ [x])
          (List.subset_append_left col [x]) ?_
        intro b q _ hb
        by_cases hq : 0 < q.2
        · simp only [hq, if_true]
          exact hb.trans (ih q.2 b)
        · simpa [hq] using hb

theorem gatherF_mem_self (steps : List (Nat × SStep)) :
    ∀ fuel x col, 0 < fuel → x ∈ gatherF steps fuel x col := by
  intro fuel
  cases fuel with
  | zero => intro x col h; omega
  | succ fuel =>
    intro x col _
    by_cases hx : x ∈ col
    · simpa [gatherF, hx] using hx
    · simp only [gatherF, hx, if_false]
      have hx1 : x ∈ col ++ [x] := List.mem_append_right col (List.mem_singleton.mpr rfl)
      cases hlk : MapsUtil.lookupNat steps x with
      | none => exact hx1
      | some st =>
        refine MapsUtil.foldl_inv (fun c => x ∈ c) _ st.deps (col ++ [x]) hx1 ?_
        intro b q _ hb
        by_cases hq : 0 < q.2
        · simp only [hq, if_true]
          exact gatherF_mono steps fuel q.2 b hb
        · simpa [hq] using hb

theorem gatherF_pos (steps : List (Nat × SStep)) :
    ∀ fuel x col, 0 < x → (∀ c ∈ col, 0 < c) →
      ∀ y ∈ gatherF steps fuel x col, 0 < y := by
  intro fuel
  induction fuel with
  | zero => intro x col _ hcol; exact hcol
  | succ fuel ih =>
    intro x col hx hcol
    by_cases hmem : x ∈ col
    · simpa [gatherF, hmem] using hcol
    · simp only [gatherF, hmem, if_false]
      have hcol1 : ∀ c ∈ col ++ [x], 0 < c := by
        intro c hc
        rcases List.mem_append.mp hc with hc | hc
        · exact hcol c hc
        · rw [List.mem_singleton.mp hc]; exact hx
      cases hlk : MapsUtil.lookupNat steps x with
      | none => exact hcol1
      | some st =>
        refine MapsUtil.foldl_inv (fun c => ∀ y ∈ c, 0 < y) _ st.deps (col ++ [x])
          hcol1 ?_
        intro b q _ hb
        by_cases hq : 0 < q.2
        · simp only [hq, if_true]
          exact ih q.2 b hq hb
        · simpa [hq] using hb

theorem gatherF_sub_univ (steps : List (Nat × SStep)) (U : List Nat)
    (hU : ∀ p ∈ steps, ∀ q ∈ p.2.deps, q.2 ∈ U) :
    ∀ fuel x col, x ∈ U → col ⊆ U → gatherF steps fuel x col ⊆ U := by
  intro fuel
  induction fuel with
  | zero => intro x col _ hcol; exact hcol
  | succ fuel ih =>
    intro x col hxU hcolU
    by_cases hmem : x ∈ col
    · simpa [gatherF, hmem] using hcolU
    · simp only [gatherF, hmem, if_false]
      have hcol1 : col ++ [x] ⊆ U := by
        intro c hc
        rcases List.mem_append.mp hc with hc | hc
        · exact hcolU hc
        · rw [List.mem_singleton.mp hc]; exact hxU
      cases hlk : MapsUtil.lookupNat steps x with
      | none => exact hcol1
      | some st =>
        refine MapsUtil.foldl_inv (fun c => c ⊆ U) _ st.deps (col ++ [x]) hcol1 ?_
        intro b q hq2 hb
        by_cases hq : 0 < q.2
        · simp only [hq, if_true]
          exact ih q.2 b (hU (x, st) (lookupNat_mem hlk) q hq2) hb
        · simpa [hq] using hb

/-- `y`'s positive dependencies all fall inside `r`. -/
def ClosedIn (steps : List (Nat × SStep)) (r : List Nat) (y : Nat) : Prop :=
  ∀ q ∈ depsOf steps y, 0 < q.2 → q.2 ∈ r

theorem closedIn_mono {steps : List (Nat × SStep)} {r r' : List Nat} {y : Nat}
    (hrr : r ⊆ r') (h : ClosedIn steps r y) : ClosedIn steps r' y :=
  fun q hq hpos => hrr (h q hq hpos)

theorem gatherF_min (steps : List (Nat × SStep)) (S : List Nat)
    (hS : ∀ y ∈ S, ClosedIn steps S y) :
    ∀ fuel x col, x ∈ S → col ⊆ S → gatherF steps fuel x col ⊆ S := by
  intro fuel
  induction fuel with
  | zero => intro x col _ hcol; exact hcol
  | succ fuel ih =>
    intro x col hxS hcolS
    by_cases hmem : x ∈ col
    · simpa [gatherF, hmem] using hcolS
    · simp only [gatherF, hmem, if_false]
      have hcol1 : col ++ [x] ⊆ S := by
        intro c hc
        rcases List.mem_append.mp hc with hc | hc
        · exact hcolS hc
        · rw [List.mem_singleton.mp hc]; exact hxS
      cases hlk : MapsUtil.lookupNat steps x with
      | none => exact hcol1
      | some st =>
        refine MapsUtil.foldl_inv (fun c => c ⊆ S) _ st.deps (col ++ [x]) hcol1 ?_
        intro b q hq2 hb
        by_cases hq : 0 < q.2
        · simp only [hq, if_true]
          refine ih q.2 b ?_ hb
          have hdeps : q ∈ depsOf steps x := by
            simp [depsOf, hlk, hq2]
          exact hS x hxS q hdeps hq
        · simpa [hq] using hb

/-- How many elements of `U` are not yet collected. -/
def NewCount (U col : List Nat) : Nat :=
  (U.filter (fun z => decide (z ∉ col))).length

theorem newCount_cons (u : Nat) (U c : List Nat) :
    NewCount (u :: U) c = (if u ∈ c then 0 else 1) + NewCount U c := by
  simp only [NewCount, List.filter_cons]
  by_cases hc : u ∈ c
  · simp [hc]
  · simp [hc]
    omega

theorem newCount_mono {col col' : List Nat} (h : col ⊆ col') (U : List Nat) :
    NewCount U col' ≤ NewCount U col := by
  induction U with
  | nil => exact Nat.le_refl 0
  | cons u U ih =>
    rw [newCount_cons, newCount_cons]
    by_cases hu' : u ∈ col'
    · by_cases hu : u ∈ col
      · simp only [if_pos hu', if_pos hu]
        omega
      · simp only [if_pos hu', if_neg hu]
        omega
    · have hu : u ∉ col := fun hc => hu' (h hc)
      simp only [if_neg hu', if_neg hu]
      omega

theorem newCount_insert {U col : List Nat} {x : Nat} (hxU : x ∈ U)
    (hx : x ∉ col) : NewCount U (col ++ [x]) < NewCount U col := by
  induction U with
  | nil => cases hxU
  | cons u U ih =>
    rw [newCount_cons, newCount_cons]
    by_cases hux : u = x
    · subst hux
      have h1 : u ∈ col ++ [u] :=
        List.mem_append_right col (List.mem_singleton.mpr rfl)
      simp only [if_pos h1, if_neg hx]
      have hmono := newCount_mono (List.subset_append_left col [u]) U
      omega
    · rcases List.mem_cons.mp hxU with h | hxU'
      · exact absurd h.symm hux
      · have heq : (u ∈ col ++ [x]) ↔ u ∈ col := by
          simp [List.mem_append, hux]
        have hlt := ih hxU'
        by_cases hu : u ∈ col
        · simp only [if_pos (heq.mpr hu), if_pos hu]
          omega
        · simp only [if_neg (fun hc => hu (heq.mp hc)), if_neg hu]
          omega

theorem gatherF_closed (steps : List (Nat × SStep)) (U : List Nat)
    (hU : ∀ p ∈ steps, ∀ q ∈ p.2.deps, q.2 ∈ U) :
    ∀ fuel x col, x ∈ U → col ⊆ U → NewCount U col < fuel →
      ∀ y ∈ gatherF steps fuel x col, y ∉ col →
        ClosedIn steps (gatherF steps fuel x col) y := by
  intro fuel
  induction fuel with
  | zero => intro x col _ _ hflt; omega
  | succ fuel ih =>
    intro x col hxU hcolU hflt
    by_cases hmem : x ∈ col
    · have hres : gatherF steps (fuel + 1) x col = col := by simp [gatherF, hmem]
      rw [hres]
      intro y hy hyn
      exact absurd hy hyn
    · have hcol1U : col ++ [x] ⊆ U := by
        intro c hc
        rcases List.mem_append.mp hc with hc | hc
        · exact hcolU hc
        · rw [List.mem_singleton.mp hc]; exact hxU
      have hnc1 : NewCount U (col ++ [x]) < fuel := by
        have hi := newCount_insert hxU hmem
        omega
      cases hlk : MapsUtil.lookupNat steps x with
      | none =>
        have hres : gatherF steps (fuel + 1) x col = col ++ [x] := by
          simp [gatherF, hmem, hlk]
        rw [hres]
        intro y hy hyn
        have hyx : y = x := by
          rcases List.mem_append.mp hy with h | h
          · exact absurd h hyn
          · exact List.mem_singleton.mp h
        subst hyx
        intro q hq
        simp [depsOf, hlk] at hq
      | some st =>
        have hres : gatherF steps (fuel + 1) x col
            = st.deps.foldl
                (fun c q => if 0 < q.2 then gatherF steps fuel q.2 c else c)
                (col ++ [x]) := by
          simp [gatherF, hmem, hlk]
        rw [hres]
        have key : ∀ ds : List (Nat × Nat), (∀ q ∈ ds, q ∈ st.deps) →
            ∀ c : List Nat, col ++ [x] ⊆ c → c ⊆ U →
            (∀ y ∈ c, y ∉ col ++ [x] → ClosedIn steps c y) →
            c ⊆ ds.foldl
                (fun c q => if 0 < q.2 then gatherF steps fuel q.2 c else c) c
            ∧ ds.foldl
                (fun c q => if 0 < q.2 then gatherF steps fuel q.2 c else c) c ⊆ U
            ∧ (∀ y ∈ ds.foldl
                  (fun c q => if 0 < q.2 then gatherF steps fuel q.2 c else c) c,
                y ∉ col ++ [x] →
                ClosedIn steps
                  (ds.foldl
                    (fun c q => if 0 < q.2 then gatherF steps fuel q.2 c else c) c) y)
            ∧ (∀ q ∈ ds, 0 < q.2 →
                q.2 ∈ ds.foldl
                  (fun c q => if 0 < q.2 then gatherF steps fuel q.2 c else c) c) := by
          intro ds
          induction ds with
          | nil =>
            intro _ c hc1 hcU hinv
            exact ⟨List.Subset.refl c, hcU, hinv,
              fun q hq => absurd hq (List.not_mem_nil q)⟩
          | cons q ds' ihds =>
            intro hsub c hc1 hcU hinv
            by_cases hq : 0 < q.2
            · simp only [List.foldl_cons, if_pos hq]
              have hqU : q.2 ∈ U :=
                hU (x, st) (lookupNat_mem hlk) q (hsub q (List.mem_cons_self q ds'))
              have hncc : NewCount U c < fuel := by
                have h2 := newCount_mono hc1 U
                omega
              have hmc := gatherF_mono steps fuel q.2 c
              have hc1U := gatherF_sub_univ steps U hU fuel q.2 c hqU hcU
              have hclosed_new := ih q.2 c hqU hcU hncc
              have hinv1 : ∀ y ∈ gatherF steps fuel q.2 c, y ∉ col ++ [x] →
                  ClosedIn steps (gatherF steps fuel q.2 c) y := by
                intro y hy hyn
                by_cases hyc : y ∈ c
                · exact closedIn_mono hmc (hinv y hyc hyn)
                · exact hclosed_new y hy hyc
              have hself : q.2 ∈ gatherF steps fuel q.2 c :=
                gatherF_mem_self steps fuel q.2 c (by omega)
              have hc11 : col ++ [x] ⊆ gatherF steps fuel q.2 c := hc1.trans hmc
              obtain ⟨ha, hb, hc, hd⟩ :=
                ihds (fun q' hq' => hsub q' (List.mem_cons_of_mem q hq'))
                  (gatherF steps fuel q.2 c) hc11 hc1U hinv1
              refine ⟨hmc.trans ha, hb, hc, ?_⟩
              intro q' hq'mem hq'pos
              rcases List.mem_cons.mp hq'mem with h | h
              · subst h
                exact ha hself
              · exact hd q' h hq'pos
            · simp only [List.foldl_cons, if_neg hq]
              obtain ⟨ha, hb, hc, hd⟩ :=
                ihds (fun q' hq' => hsub q' (List.mem_cons_of_mem q hq')) c hc1 hcU hinv
              refine ⟨ha, hb, hc, ?_⟩
              intro q' hq'mem hq'pos
              rcases List.mem_cons.mp hq'mem with h | h
              · subst h
                exact absurd hq'pos hq
              · exact hd q' h hq'pos
        obtain ⟨ha, hb, hc, hd⟩ := key st.deps (fun q h => h) (col ++ [x])
          (List.Subset.refl _) hcol1U (fun y hy hyn => absurd hy hyn)
        intro y hy hyn
        by_cases hyx : y ∈ col ++ [x]
        · have hyeq : y = x := by
            rcases List.mem_append.mp hyx with h | h
            · exact absurd h hyn
            · exact List.mem_singleton.mp h
          subst hyeq
          intro q hq hpos
          have hq' : q ∈ st.deps := by simpa [depsOf, hlk] using hq
          exact hd q hq' hpos
        · exact hc y hy hyx

theorem gather_closed (steps : List (Nat × SStep)) (x : Nat) :
    ∀ y ∈ gather_all_dependencies steps x,
      ClosedIn steps (gather_all_dependencies steps x) y := by
  have hU : ∀ p ∈ steps, ∀ q ∈ p.2.deps, q.2 ∈ gatherUniverse steps x := by
    intro p hp q hq
    simp only [gatherUniverse, List.mem_dedup]
    refine List.mem_cons_of_mem x ?_
    rw [List.mem_flatMap]
    exact ⟨p, hp, List.mem_map.mpr ⟨q, hq, rfl⟩⟩
  have hxU : x ∈ gatherUniverse steps x := by
    simp [gatherUniverse]
  have hnc : NewCount (gatherUniverse steps x) [] <
      (gatherUniverse steps x).length + 1 := by
    have := List.length_filter_le (fun z => decide (z ∉ ([] : List Nat)))
      (gatherUniverse steps x)
    simp only [NewCount]
    omega
  intro y hy
  exact gatherF_closed steps (gatherUniverse steps x) hU
    ((gatherUniverse steps x).length + 1) x [] hxU (List.nil_subset _) hnc y hy
    (List.not_mem_nil y)

/-- Claim C7: for every step map and start index `x > 0`, the set computed
by `gather_all_dependencies` never contains index 0 (the sentinel for
external axioms), and the closure is idempotent: the closure of any element
of `closure(x)` adds no element outside `closure(x)`. -/
theorem gather_all_dependencies_closure (steps : List (Nat × SStep)) (x : Nat)
    (hx : 0 < x) :
    0 ∉ gather_all_dependencies steps x
    ∧ ∀ y ∈ gather_all_dependencies steps x,
        ∀ z ∈ gather_all_dependencies steps y,
          z ∈ gather_all_dependencies steps x := by
  constructor
  · intro h0
    have := gatherF_pos steps ((gatherUniverse steps x).length + 1) x [] hx
      (fun c hc => absurd hc (List.not_mem_nil c)) 0 h0
    omega
  · intro y hy z hz
    exact gatherF_min steps (gather_all_dependencies steps x)
      (gather_closed steps x) ((gatherUniverse steps y).length + 1) y [] hy
      (List.nil_subset _) hz

/-- Witness for C7 on a concrete two-step map with an external-axiom
dependency. -/
theorem gather_all_dependencies_closure_witness :
    0 ∉ gather_all_dependencies [(1, ⟨[], [(0, 2)]⟩), (2, ⟨[], []⟩)] 1
    ∧ ∀ y ∈ gather_all_dependencies [(1, ⟨[], [(0, 2)]⟩), (2, ⟨[], []⟩)] 1,
        ∀ z ∈ gather_all_dependencies [(1, ⟨[], [(0, 2)]⟩), (2, ⟨[], []⟩)] y,
          z ∈ gather_all_dependencies [(1, ⟨[], [(0, 2)]⟩), (2, ⟨[], []⟩)] 1 :=
  gather_all_dependencies_closure [(1, ⟨[], [(0, 2)]⟩), (2, ⟨[], []⟩)] 1
    (by decide)

/-! ### `parse_vampire_proof` (superpose.rs:17-95, claim C8) -/

/-- The keywords that start sequential indexing (superpose.rs:26). -/
def proofKeywords : List Str :=
  ["demodulation".data, "superposition".data, "resolution".data, "inequality".data]

/-- `str::split` with a character predicate (empty pieces included). -/
def splitPred (p : Char → Bool) (s : Str) : List Str :=
  s.foldr
    (fun c acc =>
      match acc with
      | h :: t => if p c then [] :: h :: t else (c :: h) :: t
      | [] => [[c]])
    [[]]

/-- The parser state: `seq_index`, `vamp_to_seq` and the accumulated
`steps` map (keys in ascending order, as a `BTreeMap` iterates). -/
structure PvpState where
  seq : Option Nat
  tbl : List (Nat × Nat)
  steps : List (Nat × SStep)

/-- `BTreeMap::insert` into the key-sorted `steps` list. -/
def insertStep : List (Nat × SStep) → Nat → SStep → List (Nat × SStep)
  | [], k, v => [(k, v)]
  | p :: rest, k, v =>
    if k < p.1 then (k, v) :: p :: rest
    else if k = p.1 then (k, v) :: rest
    else p :: insertStep rest k v

/-- The formula extraction (superpose.rs:55-70): text before the first
`'['`, trimmed, with a leading `"<number>."` removed. -/
def mkFormula (lt : Str) : Str :=
  let f := RustStr.trim ((RustStr.splitChar '[' lt).headD [])
  let pre := f.takeWhile (fun c => !(c == '.'))
  if pre.length < f.length ∧ (RustStr.parseUsize (RustStr.trim pre)).isSome then
    RustStr.trim (f.drop (pre.length + 1))
  else f

/-- The dependency extraction (superpose.rs:72-85): numbers inside the
bracketed tag, each paired with its sequential index from the running
lookup table, `0` when the table has no entry yet. -/
def mkDeps (tbl : List (Nat × Nat)) (tagPart : Option Str) : List (Nat × Nat) :=
  match tagPart with
  | none => []
  | some tag =>
    ((splitPred (fun c => c == ',' || c == ' ')
          (RustStr.trimEndMatchesChar ']' tag)).filterMap
        (fun s => RustStr.parseUsize (RustStr.trim s))).map
      (fun vnum => (vnum, (MapsUtil.lookupNat tbl vnum).getD 0))

/-- Store one step at index `cur` and advance the state
(superpose.rs:53-94). -/
def pvpProcess (st : PvpState) (cur : Nat) (lt : Str) (vampNum : Option Nat)
    (tagPart : Option Str) : PvpState :=
  let steps' := insertStep st.steps cur ⟨mkFormula lt, mkDeps st.tbl tagPart⟩
  let tbl' :=
    match vampNum with
    | some v => MapsUtil.insertNat st.tbl v cur
    | none => st.tbl
  ⟨some (cur + 1), tbl', steps'⟩

/-- One line of `parse_vampire_proof`: skip empty lines; before indexing
has started, skip lines without a bracketed tag or without a proof
keyword in it; afterwards process every line. -/
def pvpLine (st : PvpState) (line : Str) : PvpState :=
  let lt := RustStr.trim line
  if lt.isEmpty then st
  else
    let vampNum := RustStr.parseUsize
      (RustStr.trim (lt.takeWhile (fun c => !(c == '.'))))
    let tagPart := (RustStr.splitChar '[' lt)[1]?
    match st.seq with
    | none =>
      match tagPart with
      | none => st
      | some tag =>
        if proofKeywords.any (fun k => RustStr.containsSub tag k) then
          pvpProcess st 1 lt vampNum tagPart
        else st
    | some cur => pvpProcess st cur lt vampNum tagPart

def pvpInit : PvpState := ⟨none, [], []⟩

/-- `parse_vampire_proof` on the file's text (the `fs::read_to_string`
result), as the `steps` map it returns. -/
def parse_vampire_proof (content : Str) : List (Nat × SStep) :=
  ((RustStr.lines content).foldl pvpLine pvpInit).steps

theorem insertStep_append {l : List (Nat × SStep)} {k : Nat} {v : SStep}
    (h : ∀ p ∈ l, p.1 < k) : insertStep l k v = l ++ [(k, v)] := by
  induction l with
  | nil => rfl
  | cons p rest ih =>
    have hp := h p (List.mem_cons_self p rest)
    simp only [insertStep]
    rw [if_neg (by omega), if_neg (by omega),
      ih (fun p' h' => h p' (List.mem_cons_of_mem p h'))]
    simp

theorem mem_insertStep : ∀ {l : List (Nat × SStep)} {k : Nat} {v : SStep}
    {p : Nat × SStep}, p ∈ insertStep l k v → p ∈ l ∨ p = (k, v) := by
  intro l
  induction l with
  | nil =>
    intro k v p hp
    rcases List.mem_singleton.mp hp with h
    exact Or.inr h
  | cons q rest ih =>
    intro k v p hp
    simp only [insertStep] at hp
    by_cases h1 : k < q.1
    · rw [if_pos h1] at hp
      rcases List.mem_cons.mp hp with h | h
      · exact Or.inr h
      · exact Or.inl h
    · rw [if_neg h1] at hp
      by_cases h2 : k = q.1
      · rw [if_pos h2] at hp
        rcases List.mem_cons.mp hp with h | h
        · exact Or.inr h
        · exact Or.inl (List.mem_cons_of_mem q h)
      · rw [if_neg h2] at hp
        rcases List.mem_cons.mp hp with h | h
        · exact Or.inl (h ▸ List.mem_cons_self q rest)
        · rcases ih h with h' | h'
          · exact Or.inl (List.mem_cons_of_mem q h')
          · exact Or.inr h'

theorem mem_range'_bound : ∀ (n s k : Nat), k ∈ List.range' s n → k < s + n := by
  intro n
  induction n with
  | zero => intro s k h; cases h
  | succ n ih =>
    intro s k h
    rw [List.range'_succ] at h
    rcases List.mem_cons.mp h with h | h
    · omega
    · have := ih (s + 1) k h
      omega

/-- The parser invariant: the collected keys are exactly `1..len`, and the
running index is `len + 1` (or indexing has not started and nothing is
collected). -/
def PvpInv (st : PvpState) : Prop :=
  st.steps.map Prod.fst = List.range' 1 st.steps.length
  ∧ (st.seq = some (st.steps.length + 1) ∨ (st.seq = none ∧ st.steps = []))

theorem pvpProcess_inv {st : PvpState} (hinv : PvpInv st) (cur : Nat)
    (hcur : cur = st.steps.length + 1) (lt : Str) (vampNum : Option Nat)
    (tagPart : Option Str) : PvpInv (pvpProcess st cur lt vampNum tagPart) := by
  obtain ⟨h1, _⟩ := hinv
  have hkeys : ∀ p ∈ st.steps, p.1 < cur := by
    intro p hp
    have hmem : p.1 ∈ st.steps.map Prod.fst := List.mem_map.mpr ⟨p, hp, rfl⟩
    rw [h1] at hmem
    have := mem_range'_bound st.steps.length 1 p.1 hmem
    omega
  have happ := insertStep_append (l := st.steps)
    (k := cur) (v := ⟨mkFormula lt, mkDeps st.tbl tagPart⟩) hkeys
  constructor
  · show (insertStep st.steps cur _).map Prod.fst
      = List.range' 1 (insertStep st.steps cur _).length
    rw [happ, List.map_append, h1, List.length_append]
    have hconc : List.range' 1 (st.steps.length + 1)
        = List.range' 1 st.steps.length ++ [1 + st.steps.length] := by
      rw [List.range'_concat]
      simp
    simp only [List.length_cons, List.length_nil]
    rw [hconc]
    congr 1
    simp [hcur]
    omega
  · left
    show some (cur + 1) = some ((insertStep st.steps cur _).length + 1)
    rw [happ, List.length_append]
    simp only [List.length_cons, List.length_nil]
    congr 1
    omega

theorem pvpLine_cases (st : PvpState) (line : Str) :
    pvpLine st line = st
    ∨ ∃ cur, (st.seq = some cur ∨ (st.seq = none ∧ cur = 1))
        ∧ pvpLine st line
          = pvpProcess st cur (RustStr.trim line)
              (RustStr.parseUsize (RustStr.trim
                ((RustStr.trim line).takeWhile (fun c => !(c == '.')))))
              ((RustStr.splitChar '[' (RustStr.trim line))[1]?) := by
  by_cases hemp : (RustStr.trim line).isEmpty
  · left
    simp [pvpLine, hemp]
  · cases hseq : st.seq with
    | none =>
      cases htag : (RustStr.splitChar '[' (RustStr.trim line))[1]? with
      | none =>
        left
        simp [pvpLine, hemp, hseq, htag]
      | some tag =>
        by_cases hkw : proofKeywords.any (fun k => RustStr.containsSub tag k)
        · right
          refine ⟨1, Or.inr ⟨rfl, rfl⟩, ?_⟩
          simp [pvpLine, hemp, hseq, htag, hkw]
        · left
          simp [pvpLine, hemp, hseq, htag, hkw]
    | some cur =>
      right
      refine ⟨cur, Or.inl rfl, ?_⟩
      simp [pvpLine, hemp, hseq]

theorem pvpLine_inv {st : PvpState} (hinv : PvpInv st) (line : Str) :
    PvpInv (pvpLine st line) := by
  rcases pvpLine_cases st line with h | ⟨cur, hcur, h⟩
  · rw [h]; exact hinv
  · rw [h]
    refine pvpProcess_inv hinv cur ?_ _ _ _
    rcases hcur with hc | ⟨hn, hc⟩
    · rcases hinv.2 with h2 | ⟨h2, -⟩
      · rw [hc] at h2
        exact Option.some.inj h2
      · rw [hc] at h2
        cases h2
    · rcases hinv.2 with h2 | ⟨-, h2⟩
      · rw [hn] at h2
        cases h2
      · rw [hc, h2]
        rfl

theorem pvpFold_inv : ∀ (ls : List Str) (st : PvpState), PvpInv st →
    PvpInv (ls.foldl pvpLine st) := by
  intro ls
  induction ls with
  | nil => intro st h; exact h
  | cons l rest ih => intro st h; exact ih (pvpLine st l) (pvpLine_inv h l)

theorem pvpProcess_new_deps (st : PvpState) (cur : Nat) (lt : Str)
    (vampNum : Option Nat) (tagPart : Option Str) :
    ∀ p ∈ (pvpProcess st cur lt vampNum tagPart).steps, p ∉ st.steps →
      ∀ d ∈ p.2.deps, d.2 = (MapsUtil.lookupNat st.tbl d.1).getD 0 := by
  intro p hp hnp d hd
  rcases mem_insertStep hp with h | h
  · exact absurd h hnp
  · subst h
    simp only at hd
    cases tagPart with
    | none => cases hd
    | some tag =>
      simp only [mkDeps] at hd
      rcases List.mem_map.mp hd with ⟨vnum, -, heq⟩
      rw [← heq]

/-- Claim C8: from the first line whose bracketed tag contains a recognized
derivation keyword onward, the steps collected by `parse_vampire_proof`
carry consecutive sequential indices starting at 1 (the key list is exactly
`[1, …, n]`), and each listed dependency's sequential component is resolved
through the running original→sequential table as it stood before the
step's own line — in particular an original number with no entry yet
resolves to the sentinel index 0 (`unwrap_or(0)`). -/
theorem parse_vampire_proof_indices_and_sentinel (c : Str) :
    ((parse_vampire_proof c).map Prod.fst
        = List.range' 1 (parse_vampire_proof c).length)
    ∧ ∀ pre line post, RustStr.lines c = pre ++ line :: post →
        ∀ p ∈ (pvpLine (List.foldl pvpLine pvpInit pre) line).steps,
          p ∉ (List.foldl pvpLine pvpInit pre).steps →
          ∀ d ∈ p.2.deps,
            d.2 = (MapsUtil.lookupNat
                (List.foldl pvpLine pvpInit pre).tbl d.1).getD 0 := by
  constructor
  · exact (pvpFold_inv (RustStr.lines c) pvpInit ⟨rfl, Or.inr ⟨rfl, rfl⟩⟩).1
  · intro pre line post _ p hp hnp d hd
    rcases pvpLine_cases (List.foldl pvpLine pvpInit pre) line with h | ⟨cur, -, h⟩
    · rw [h] at hp
      exact absurd hp hnp
    · rw [h] at hp
      exact pvpProcess_new_deps _ cur _ _ _ p hp hnp d hd

/-! ### `load_lemma` (utils.rs:297-347) and
`append_superposition_steps_as_lemmas` (superpose.rs:309-325), claim C10 -/

/-- `trim_end_matches(suf)`: repeatedly strip a trailing occurrence of
`suf`, fuelled (each strip removes at least one character for the
non-empty prover suffixes, so the wrapper's fuel is never exhausted). -/
def stripAllF (suf : Str) : Nat → Str → Str
  | 0, s => s
  | f + 1, s =>
    if RustStr.strEnds s suf then stripAllF suf f (s.take (s.length - suf.length))
    else s

def stripAll (suf s : Str) : Str := stripAllF suf (s.length + 1) s

/-- `strip_prover_suffix` (utils.rs:538-546). -/
def strip_prover_suffix (n : Str) : Str :=
  if RustStr.strEnds n "_twee".data then stripAll "_twee".data n
  else if RustStr.strEnds n "_vampire".data then stripAll "_vampire".data n
  else if RustStr.strEnds n "_egg".data then stripAll "_egg".data n
  else n

/-- The file system seen by `load_lemma`, keyed by lemma subdirectory and
stripped lemma name: whether `<lemmas_dir>/<sub>/<name>.p` exists, and the
formula body `extract_tptp_formula_body` finds in it under the internal
`conjecture_…` name (the textual prefix replacement is part of the
abstracted lookup). -/
structure LemmaWorld where
  fileExists : Str → Str → Bool
  extract : Str → Str → Option Str

/-- `load_lemma` (utils.rs:297-347).  The leading prefix dispatch and the
final `trim` are concrete; the file read and body extraction go through
the `LemmaWorld` oracle. -/
def load_lemma (w : LemmaWorld) (lemmas_dir lemma_name : Str) : Except Str Str :=
  let subdir : Option Str :=
    if RustStr.strStarts lemma_name "single_lemma_".data then some "single".data
    else if RustStr.strStarts lemma_name "history_lemma_".data then some "history".data
    else if RustStr.strStarts lemma_name "abstract_lemma_".data then some "abstract".data
    else none
  match subdir with
  | none => .error ("[ERROR] Unknown lemma type for ".data ++ lemma_name)
  | some sub =>
    let name := strip_prover_suffix lemma_name
    if w.fileExists sub name = false then
      .error ("[ERROR] File not found for lemma ".data ++ name)
    else if RustStr.strStarts name "single_lemma_".data
        ∨ RustStr.strStarts name "history_lemma_".data
        ∨ RustStr.strStarts name "abstract_lemma_".data then
      match w.extract sub name with
      | some body => .ok (RustStr.trim body)
      | none => .error ("[ERROR] Formula not found for ".data ++ name)
    else .error ("[ERROR] Unknown lemma type for ".data ++ name)

/-- `format!("{:04}", _)`: zero-pad the decimal digits to width 4. -/
def pad4 (ds : Str) : Str := List.replicate (4 - ds.length) '0' ++ ds

/-- `format!("lemma_{:04}", dep_idx)` (superpose.rs:319). -/
def lemmaNameOf (d : Nat) : Str := "lemma_".data ++ pad4 (Nat.repr d).data

/-- The `for dep_idx in all_deps` loop of
`append_superposition_steps_as_lemmas`: `load_lemma` each step lemma and
append it as an axiom (the append itself has no failure path), stopping at
the first `Err`. -/
def appendDeps (w : LemmaWorld) (ldir : Str) : List Nat → Except Str Unit
  | [] => .ok ()
  | d :: ds =>
    match load_lemma w ldir (lemmaNameOf d) with
    | .error e => .error e
    | .ok _ => appendDeps w ldir ds

/-- The outer `for (seq_idx, _step) in steps` loop of
`append_superposition_steps_as_lemmas` (superpose.rs:309-325): gather the
dependency closure of each step (a sorted `BTreeSet`) and load each as
`lemma_<NNNN>`. -/
def aslGo (w : LemmaWorld) (ldir : Str) (all : List (Nat × SStep)) :
    List (Nat × SStep) → Except Str Unit
  | [] => .ok ()
  | (seq, _) :: rest =>
    match appendDeps w ldir
        (ProofTurnaround.sortedOf (gather_all_dependencies all seq)) with
    | .error e => .error e
    | .ok _ => aslGo w ldir all rest

def append_superposition_steps_as_lemmas (w : LemmaWorld) (tmp_file ldir : Str)
    (steps : List (Nat × SStep)) : Except Str Unit :=
  aslGo w ldir steps steps

/-- The environment of `prove_lemma` (minimize.rs:846-972): the outcome of
`create_tmp_copy`, the lemma file system, `promote_axiom_to_conjecture`,
`extract_conjecture_from_file`, and the prover phase (steps 6-7: `run_twee`,
`run_vampire` and the proof selection) as one abstracted outcome. -/
structure ProveEnv where
  tmp : Except Str Str
  world : LemmaWorld
  promote : Str → Except Str Unit
  extractConj : Except Str Str
  select : Except Str (Option (Str × Nat))

/-- Step 2 of `prove_lemma`: load every dependency lemma. -/
def depsLoad (w : LemmaWorld) (ldir : Str) : List Str → Except Str Unit
  | [] => .ok ()
  | n :: ns =>
    match load_lemma w ldir n with
    | .error _ => .error ("Missing lemma ".data ++ n)
    | .ok _ => depsLoad w ldir ns

/-- Step 5 of `prove_lemma`: determine the conjecture name and formula. -/
def conjLoad (env : ProveEnv) (ldir : Str) : Option Str → Except Str Str
  | some s =>
    match env.promote s with
    | .error e => .error e
    | .ok _ =>
      match load_lemma env.world ldir s with
      | .error _ => .error ("Cannot load lemma ".data ++ s)
      | .ok f => .ok f
  | none => env.extractConj

/-- Steps 2-7 of `prove_lemma`.  Steps 3-4 append extra dependencies and
axioms to the temporary file and cannot fail; the provers run in step 6,
recorded in the returned invocation log. -/
def proveLemmaRest (env : ProveEnv) (lemmas_dir : Str)
    (dependencies : Option (List Str)) (conjecture : Option Str) :
    Except Str (Option (Str × Nat)) × List Str :=
  match depsLoad env.world lemmas_dir (dependencies.getD []) with
  | .error e => (.error e, [])
  | .ok _ =>
    match conjLoad env lemmas_dir conjecture with
    | .error e => (.error e, [])
    | .ok _ => (env.select, ["twee".data, "vampire".data])

/-- `prove_lemma` (minimize.rs:846-972), paired with the list of prover
invocations it performs. -/
def prove_lemma (env : ProveEnv) (input_file lemmas_dir : Str)
    (superposition_steps : Option (List (Nat × SStep)))
    (dependencies : Option (List Str)) (axioms : List (Str × Str))
    (extra_dependencies : List (Str × Str)) (conjecture : Option Str) :
    Except Str (Option (Str × Nat)) × List Str :=
  match env.tmp with
  | .error e => (.error e, [])
  | .ok tmp_path =>
    match superposition_steps with
    | some sp =>
      match append_superposition_steps_as_lemmas env.world tmp_path lemmas_dir sp with
      | .error e => (.error e, [])
      | .ok _ => proveLemmaRest env lemmas_dir dependencies conjecture
    | none => proveLemmaRest env lemmas_dir dependencies conjecture

theorem strStarts_cons_ne {c c' : Char} (h : (c == c') = false) (r p : Str) :
    RustStr.strStarts (c :: r) (c' :: p) = false := by
  simp only [RustStr.strStarts, h, Bool.false_and]

theorem le_foldr_max : ∀ (l : List Nat), ∀ y ∈ l, y ≤ l.foldr max 0 := by
  intro l
  induction l with
  | nil => intro y h; cases h
  | cons a t ih =>
    intro y h
    rcases List.mem_cons.mp h with h | h
    · subst h
      exact Nat.le_max_left y (t.foldr max 0)
    · exact (ih y h).trans (Nat.le_max_right a (t.foldr max 0))

theorem mem_sortedOf {l : List Nat} {y : Nat} :
    y ∈ ProofTurnaround.sortedOf l ↔ y ∈ l := by
  simp only [ProofTurnaround.sortedOf, List.mem_filter, List.mem_range,
    decide_eq_true_eq]
  constructor
  · rintro ⟨-, h⟩
    exact h
  · intro h
    exact ⟨Nat.lt_succ_of_le (le_foldr_max l y h), h⟩

theorem load_lemma_rejects_step_name (w : LemmaWorld) (ldir : Str) (d : Nat) :
    load_lemma w ldir (lemmaNameOf d)
      = .error ("[ERROR] Unknown lemma type for ".data ++ lemmaNameOf d) := by
  have hl : lemmaNameOf d = 'l' :: ("emma_".data ++ pad4 (Nat.repr d).data) := by
    show "lemma_".data ++ _ = _
    rw [show "lemma_".data = 'l' :: "emma_".data from by decide, List.cons_append]
  rw [hl]
  simp [load_lemma, strStarts_cons_ne]

theorem aslGo_error (w : LemmaWorld) (ldir : Str) (all : List (Nat × SStep))
    (seq : Nat) (st : SStep) (rest : List (Nat × SStep)) :
    ∃ e, aslGo w ldir all ((seq, st) :: rest) = .error e := by
  have hmem : seq ∈ ProofTurnaround.sortedOf (gather_all_dependencies all seq) :=
    mem_sortedOf.mpr (gatherF_mem_self all ((gatherUniverse all seq).length + 1)
      seq [] (Nat.succ_pos _))
  cases hsd : ProofTurnaround.sortedOf (gather_all_dependencies all seq) with
  | nil =>
    rw [hsd] at hmem
    cases hmem
  | cons d ds =>
    refine ⟨"[ERROR] Unknown lemma type for ".data ++ lemmaNameOf d, ?_⟩
    simp [aslGo, hsd, appendDeps, load_lemma_rejects_step_name]

/-- Claim C10: whenever `prove_lemma` receives a non-empty
superposition-steps map, it returns an `Err` before either prover runs
(the invocation log stays empty): `append_superposition_steps_as_lemmas`
names every step `lemma_<NNNN>`, and `load_lemma` rejects every name that
does not start with `single_lemma_`, `history_lemma_` or
`abstract_lemma_`.  The conclusion holds for every file-system and prover
environment. -/
theorem prove_lemma_nonempty_superposition_errors (env : ProveEnv)
    (input_file lemmas_dir : Str) (sp : List (Nat × SStep))
    (dependencies : Option (List Str)) (axioms : List (Str × Str))
    (extra_dependencies : List (Str × Str)) (conjecture : Option Str)
    (hne : sp ≠ []) :
    (prove_lemma env input_file lemmas_dir (some sp) dependencies axioms
        extra_dependencies conjecture).2 = []
    ∧ ∃ e, (prove_lemma env input_file lemmas_dir (some sp) dependencies axioms
        extra_dependencies conjecture).1 = .error e := by
  cases htmp : env.tmp with
  | error e =>
    constructor
    · simp [prove_lemma, htmp]
    · exact ⟨e, by simp [prove_lemma, htmp]⟩
  | ok t =>
    match sp, hne with
    | (seq, st) :: rest, _ =>
      obtain ⟨e, he⟩ := aslGo_error env.world lemmas_dir ((seq, st) :: rest) seq st rest
      have happ : append_superposition_steps_as_lemmas env.world t lemmas_dir
          ((seq, st) :: rest) = .error e := he
      constructor
      · simp [prove_lemma, htmp, happ]
      · exact ⟨e, by simp [prove_lemma, htmp, happ]⟩

/-- Witness for C10 on a one-step superposition map and a concrete
environment. -/
theorem prove_lemma_nonempty_superposition_errors_witness :
    (prove_lemma ⟨.ok "tmp".data, ⟨fun _ _ => false, fun _ _ => none⟩,
        fun _ => .ok (), .ok [], .ok none⟩ "in.p".data "../lemmas".data
        (some [(1, ⟨[], []⟩)]) none [] [] none).2 = []
    ∧ ∃ e, (prove_lemma ⟨.ok "tmp".data, ⟨fun _ _ => false, fun _ _ => none⟩,
        fun _ => .ok (), .ok [], .ok none⟩ "in.p".data "../lemmas".data
        (some [(1, ⟨[], []⟩)]) none [] [] none).1 = .error e :=
  prove_lemma_nonempty_superposition_errors
    ⟨.ok "tmp".data, ⟨fun _ _ => false, fun _ _ => none⟩,
      fun _ => .ok (), .ok [], .ok none⟩ "in.p".data "../lemmas".data
    [(1, ⟨[], []⟩)] none [] [] none (by simp)

end Superpose

/-! ## `try_minimize`'s root scan (minimize.rs:54-87 and 814-831, claim C9) -/

namespace MinimizeScan

/-- Does `\bsK\d+\b` match at the current position (`prev` is the previous
character)?  The digit run is maximal, since a shorter run would put a
word character on both sides of the trailing `\b`. -/
def skolemAt (prev : Option Char) (s : Str) : Bool :=
  match s with
  | 's' :: 'K' :: rest =>
    !AlphaMatch.wordOpt prev
      && !(rest.takeWhile Char.isDigit).isEmpty
      && !AlphaMatch.wordOpt (rest.drop (rest.takeWhile Char.isDigit).length).head?
  | _ => false

def hasSkolemAux : Option Char → Str → Bool
  | _, [] => false
  | prev, c :: rest => skolemAt prev (c :: rest) || hasSkolemAux (some c) rest

/-- `Regex::new(r"\bsK\d+\b").is_match(formula)` (minimize.rs:73-76). -/
def hasSkolem (s : Str) : Bool := hasSkolemAux none s

/-- The `while accepted < max_candidates && offset < max_key` scan of
`try_minimize` (minimize.rs:57-87 with `max_candidates = 4`), fuelled (the
loop terminates because `offset` strictly increases towards `max_key`; the
wrapper supplies fuel `max_key`, enough for every iteration).  `summary`
models `summary_data.get(&key)` together with `entry[0].as_str()`;
`process` abstracts the per-accepted-root work (minimize.rs:88-813:
`build_dag`, the temporary files and the candidate loop), returning `Err`
to propagate or the local best folded into a `GlobalBest` candidate, which
updates `global_best` as in C4's `update_global_best`. -/
def scanF (summary : Str → Option (Option Str)) (w : Superpose.LemmaWorld)
    (ldir : Str) (process : Str → Except Str (Option Minimize.GlobalBest))
    (maxKey : Nat) :
    Nat → Nat → Nat → Option Minimize.GlobalBest →
      Except Str (Option Minimize.GlobalBest)
  | 0, offset, accepted, gb =>
    if accepted < 4 ∧ offset < maxKey then .error "out of fuel".data else .ok gb
  | fuel + 1, offset, accepted, gb =>
    if accepted < 4 ∧ offset < maxKey then
      match summary ((Nat.repr (maxKey - offset)).data) with
      | none => scanF summary w ldir process maxKey fuel (offset + 1) accepted gb
      | some none => .error "Bad summary.json format".data
      | some (some root) =>
        match Superpose.load_lemma w ldir root with
        | .error _ => .error ("Missing lemma ".data ++ root)
        | .ok formula =>
          if hasSkolem formula then
            scanF summary w ldir process maxKey fuel (offset + 1) accepted gb
          else
            match process root with
            | .error e => .error e
            | .ok none =>
              scanF summary w ldir process maxKey fuel (offset + 1) (accepted + 1) gb
            | .ok (some cand) =>
              scanF summary w ldir process maxKey fuel (offset + 1) (accepted + 1)
                (Minimize.update_global_best gb cand)
    else .ok gb

/-- The scan started as in the source: `offset = 4`, no root accepted yet,
no global best. -/
def try_minimize_scan (summary : Str → Option (Option Str))
    (w : Superpose.LemmaWorld) (ldir : Str)
    (process : Str → Except Str (Option Minimize.GlobalBest)) (maxKey : Nat) :
    Except Str (Option Minimize.GlobalBest) :=
  scanF summary w ldir process maxKey maxKey 4 0 none

/-- The tail of `try_minimize` (minimize.rs:814-831): a surviving
`global_best` is persisted and returned, otherwise the function returns
`Err("No valid root/history candidate combination found.")`. -/
def try_minimize_outcome (summary : Str → Option (Option Str))
    (w : Superpose.LemmaWorld) (ldir : Str)
    (process : Str → Except Str (Option Minimize.GlobalBest)) (maxKey : Nat) :
    Except Str Minimize.GlobalBest :=
  match try_minimize_scan summary w ldir process maxKey with
  | .error e => .error e
  | .ok none => .error "No valid root/history candidate combination found.".data
  | .ok (some gb) => .ok gb

theorem scanF_all_rejected (summary : Str → Option (Option Str))
    (w : Superpose.LemmaWorld) (ldir : Str)
    (process : Str → Except Str (Option Minimize.GlobalBest)) (maxKey : Nat)
    (hrej : ∀ k e, summary k = some e →
      ∃ r f, e = some r ∧ Superpose.load_lemma w ldir r = .ok f
        ∧ hasSkolem f = true) :
    ∀ fuel offset, maxKey ≤ fuel + offset →
      scanF summary w ldir process maxKey fuel offset 0 none = .ok none := by
  intro fuel
  induction fuel with
  | zero =>
    intro offset hle
    have hlt : ¬offset < maxKey := by omega
    simp [scanF, hlt]
  | succ fuel ih =>
    intro offset hle
    by_cases hlt : offset < maxKey
    · have hcond : (0 : Nat) < 4 ∧ offset < maxKey := ⟨by omega, hlt⟩
      cases hsum : summary ((Nat.repr (maxKey - offset)).data) with
      | none =>
        have hrec := ih (offset + 1) (by omega)
        simp [scanF, hcond, hsum, hrec]
      | some e =>
        obtain ⟨r, f, he, hld, hsk⟩ := hrej _ e hsum
        subst he
        have hrec := ih (offset + 1) (by omega)
        simp [scanF, hcond, hsum, hld, hsk, hrec]
    · simp [scanF, hlt]

/-- Claim C9: if every scanned root candidate is rejected — each key that
is present in the summary names a root lemma whose formula loads and
contains a Skolem constant `sK<digits>` — then the scan loop of
`try_minimize` terminates with no accepted candidate and no global best,
and `try_minimize` returns
`Err("No valid root/history candidate combination found.")` rather than
persisting any output, for every per-root work oracle `process`. -/
theorem try_minimize_all_roots_skolem (summary : Str → Option (Option Str))
    (w : Superpose.LemmaWorld) (ldir : Str)
    (process : Str → Except Str (Option Minimize.GlobalBest)) (maxKey : Nat)
    (hrej : ∀ k e, summary k = some e →
      ∃ r f, e = some r ∧ Superpose.load_lemma w ldir r = .ok f
        ∧ hasSkolem f = true) :
    try_minimize_outcome summary w ldir process maxKey
      = .error "No valid root/history candidate combination found.".data := by
  have h := scanF_all_rejected summary w ldir process maxKey hrej maxKey 4 (by omega)
  simp [try_minimize_outcome, try_minimize_scan, h]

/-- Witness for C9: one summary entry whose root formula is `sK1(a)`. -/
theorem try_minimize_all_roots_skolem_witness :
    try_minimize_outcome
        (fun k => if k = "1".data then some (some "single_lemma_0001".data) else none)
        ⟨fun _ _ => true, fun _ _ => some "sK1(a)".data⟩ "../lemmas".data
        (fun _ => .ok none) 6
      = .error "No valid root/history candidate combination found.".data :=
  try_minimize_all_roots_skolem
    (fun k => if k = "1".data then some (some "single_lemma_0001".data) else none)
    ⟨fun _ _ => true, fun _ _ => some "sK1(a)".data⟩ "../lemmas".data
    (fun _ => .ok none) 6
    (by
      intro k e h
      have h2 : (if k = "1".data then some (some "single_lemma_0001".data)
          else none) = some e := h
      by_cases hk : k = "1".data
      · rw [if_pos hk] at h2
        refine ⟨"single_lemma_0001".data, "sK1(a)".data,
          (Option.some.inj h2).symm, rfl, by decide⟩
      · rw [if_neg hk] at h2
        cases h2)

end MinimizeScan
